import Mathlib

/-!
Verification development for the `crypto_primitives` repository
(BIP-32 hierarchical deterministic keys, BIP-39 mnemonics, Base58Check).

Modelling conventions used throughout this file:

* Python `bytes` values are modelled as `List Nat`, one entry per byte;
  theorems carry `< 256` range hypotheses where byte-ness matters.
* Python `str` values are modelled as `List Char`.
* Python `int` is `Nat` where the source guarantees non-negativity and
  `Int` where a sign can occur (path-segment parsing, child indices).
* A Python function that can `raise` is modelled in the `Except Err` monad;
  each `Err` constructor corresponds to one family of `raise` sites in the
  source (the table is on `Err` below).
* Loops whose bound is data-dependent (`while num > 0`, `while k_val`) are
  modelled with an explicit fuel argument large enough to be extensionally
  equal to the loop for every input; this keeps every definition
  structurally recursive and hence evaluable by `decide` in the kernel.
* `hashlib.sha256`, `hashlib.sha512` (through `hmac`), and `ripemd160` are
  Python-stdlib primitives external to the repository; they are embedded
  here directly from FIPS 180-4 and the RIPEMD-160 specification, over
  `Nat` words reduced modulo `2^32` / `2^64`.
-/

set_option maxRecDepth 100000

namespace CryptoPrims

/-- Decidable equality on `Except`, needed so that concrete runs of the
embedded fallible functions can be checked by `decide`. -/
instance {ε α : Type} [DecidableEq ε] [DecidableEq α] : DecidableEq (Except ε α)
  | .ok a, .ok b =>
    if h : a = b then .isTrue (h ▸ rfl)
    else .isFalse (fun hh => h (Except.ok.inj hh))
  | .error a, .error b =>
    if h : a = b then .isTrue (h ▸ rfl)
    else .isFalse (fun hh => h (Except.error.inj hh))
  | .ok _, .error _ => .isFalse (fun hh => Except.noConfusion hh)
  | .error _, .ok _ => .isFalse (fun hh => Except.noConfusion hh)

/-! ## Positional numeral helpers (big-endian digit lists) -/

/-- Value of a big-endian digit list in base `B`
(Python `int.from_bytes(-, "big")` for `B = 256`, `int(s, 2)` for `B = 2`). -/
def beVal (B : Nat) (ds : List Nat) : Nat :=
  ds.foldl (fun a d => B * a + d) 0

/-- Fixed-width big-endian digits of `n` in base `B`
(Python `int.to_bytes(L, "big")` for `B = 256`; total, the source's
`OverflowError` cannot fire at any call site because every caller
guarantees `n < B ^ L`). -/
def beDigits (B : Nat) : Nat → Nat → List Nat
  | 0, _ => []
  | L + 1, n => beDigits B L (n / B) ++ [n % B]

/-- Fuel-driven minimal big-endian digit expansion; the fuel only has to
dominate the number of division steps, which `n` itself always does. -/
def minDigitsAux (B : Nat) : Nat → Nat → List Nat
  | 0, _ => []
  | f + 1, n => if n = 0 then [] else minDigitsAux B f (n / B) ++ [n % B]

/-- Minimal big-endian digits of `n` in base `B` (empty for `n = 0`):
the repeated-divmod loop of `base58_encode`, and `bin(n)[2:]` for `B = 2`
and `n > 0`. -/
def minDigits (B n : Nat) : List Nat :=
  minDigitsAux B (n + 1) n

/-- Python `bin(n)[2:]` as a base-2 digit list (`bin(0)[2:] = "0"`). -/
def pyBin (n : Nat) : List Nat :=
  if n = 0 then [0] else minDigits 2 n

/-- Python `int.bit_length`: the number of binary digits, 0 for 0. -/
def bitLength (n : Nat) : Nat := (minDigits 2 n).length

/-- Python `str.zfill` on a digit list: left-pad with zeros to width `k`
(never truncates). -/
def zfill (k : Nat) (l : List Nat) : List Nat :=
  List.replicate (k - l.length) 0 ++ l

/-- Little-endian byte value (RIPEMD-160 uses little-endian words). -/
def leVal (B : Nat) (ds : List Nat) : Nat := beVal B ds.reverse

/-- Fixed-width little-endian digits. -/
def leDigits (B L n : Nat) : List Nat := (beDigits B L n).reverse

/-- Successive groups of `k` elements of a list, the Python
`[l[i:i+k] for i in range(0, len(l), k)]`; fuel is the list length, enough
because every step removes at least one element when `k > 0`. -/
def chunksAux (k : Nat) : Nat → List α → List (List α)
  | 0, _ => []
  | f + 1, l => if l.isEmpty then [] else l.take k :: chunksAux k f (l.drop k)

/-- Groups of `k` consecutive elements (last group possibly short). -/
def chunks (k : Nat) (l : List α) : List (List α) :=
  chunksAux k l.length l

/-! ## SHA-256 (FIPS 180-4), bytes-in bytes-out over `Nat` -/

/-- Word modulus for 32-bit arithmetic. -/
def M32 : Nat := 2 ^ 32

/-- Right-rotation of a 32-bit word. -/
def rotr32 (r x : Nat) : Nat :=
  ((x >>> r) ||| (x <<< (32 - r))) % M32

/-- SHA-256 round constants K, FIPS 180-4 sec 4.2.2. -/
def K256 : List Nat :=
  [0x428A2F98, 0x71374491, 0xB5C0FBCF, 0xE9B5DBA5, 0x3956C25B,
   0x59F111F1, 0x923F82A4, 0xAB1C5ED5, 0xD807AA98, 0x12835B01,
   0x243185BE, 0x550C7DC3, 0x72BE5D74, 0x80DEB1FE, 0x9BDC06A7,
   0xC19BF174, 0xE49B69C1, 0xEFBE4786, 0x0FC19DC6, 0x240CA1CC,
   0x2DE92C6F, 0x4A7484AA, 0x5CB0A9DC, 0x76F988DA, 0x983E5152,
   0xA831C66D, 0xB00327C8, 0xBF597FC7, 0xC6E00BF3, 0xD5A79147,
   0x06CA6351, 0x14292967, 0x27B70A85, 0x2E1B2138, 0x4D2C6DFC,
   0x53380D13, 0x650A7354, 0x766A0ABB, 0x81C2C92E, 0x92722C85,
   0xA2BFE8A1, 0xA81A664B, 0xC24B8B70, 0xC76C51A3, 0xD192E819,
   0xD6990624, 0xF40E3585, 0x106AA070, 0x19A4C116, 0x1E376C08,
   0x2748774C, 0x34B0BCB5, 0x391C0CB3, 0x4ED8AA4A, 0x5B9CCA4F,
   0x682E6FF3, 0x748F82EE, 0x78A5636F, 0x84C87814, 0x8CC70208,
   0x90BEFFFA, 0xA4506CEB, 0xBEF9A3F7, 0xC67178F2]

/-- SHA-256 initial state, FIPS 180-4 sec 5.3.3. -/
def H256 : List Nat :=
  [0x6A09E667, 0xBB67AE85, 0x3C6EF372, 0xA54FF53A,
   0x510E527F, 0x9B05688C, 0x1F83D9AB, 0x5BE0CD19]

/-- SHA-256 message padding: `0x80`, zeros to 56 mod 64, 8-byte big-endian
bit length. -/
def sha256pad (msg : List Nat) : List Nat :=
  msg ++ [0x80] ++ List.replicate ((119 - msg.length % 64) % 64) 0
      ++ beDigits 256 8 (8 * msg.length)

/-- Message-schedule extension: append words 16..63. -/
def sched256 : Nat → List Nat → List Nat
  | 0, w => w
  | f + 1, w =>
    let g := fun i => w.getD (w.length - i) 0
    let s0 := rotr32 7 (g 15) ^^^ rotr32 18 (g 15) ^^^ (g 15 >>> 3)
    let s1 := rotr32 17 (g 2) ^^^ rotr32 19 (g 2) ^^^ (g 2 >>> 10)
    sched256 f (w ++ [(g 16 + s0 + g 7 + s1) % M32])

/-- One SHA-256 round, consuming one `(K, W)` pair. -/
def round256 (st : List Nat) (kw : Nat × Nat) : List Nat :=
  match st with
  | [a, b, c, d, e, f, g, h] =>
    let S1 := rotr32 6 e ^^^ rotr32 11 e ^^^ rotr32 25 e
    let ch := (e &&& f) ^^^ ((e ^^^ (M32 - 1)) &&& g)
    let t1 := (h + S1 + ch + kw.1 + kw.2) % M32
    let S0 := rotr32 2 a ^^^ rotr32 13 a ^^^ rotr32 22 a
    let mj := (a &&& b) ^^^ (a &&& c) ^^^ (b &&& c)
    let t2 := (S0 + mj) % M32
    [(t1 + t2) % M32, a, b, c, (d + t1) % M32, e, f, g]
  | st => st

/-- Compress one 64-byte block into the running state. -/
def compress256 (st : List Nat) (block : List Nat) : List Nat :=
  let w := sched256 48 ((chunks 4 block).map (beVal 256))
  let e := (K256.zip w).foldl round256 st
  (st.zip e).map (fun p => (p.1 + p.2) % M32)

/-- SHA-256 digest (32 bytes) of a byte list: `hashlib.sha256(-).digest()`. -/
def sha256 (msg : List Nat) : List Nat :=
  ((chunks 64 (sha256pad msg)).foldl compress256 H256).flatMap (beDigits 256 4)

/-! ## SHA-512 (FIPS 180-4) and HMAC-SHA512 (RFC 2104) -/

/-- Word modulus for 64-bit arithmetic. -/
def M64 : Nat := 2 ^ 64

/-- Right-rotation of a 64-bit word. -/
def rotr64 (r x : Nat) : Nat :=
  ((x >>> r) ||| (x <<< (64 - r))) % M64

/-- SHA-512 round constants K, FIPS 180-4 sec 4.2.3. -/
def K512 : List Nat :=
  [0x428A2F98D728AE22, 0x7137449123EF65CD, 0xB5C0FBCFEC4D3B2F,
   0xE9B5DBA58189DBBC, 0x3956C25BF348B538, 0x59F111F1B605D019,
   0x923F82A4AF194F9B, 0xAB1C5ED5DA6D8118, 0xD807AA98A3030242,
   0x12835B0145706FBE, 0x243185BE4EE4B28C, 0x550C7DC3D5FFB4E2,
   0x72BE5D74F27B896F, 0x80DEB1FE3B1696B1, 0x9BDC06A725C71235,
   0xC19BF174CF692694, 0xE49B69C19EF14AD2, 0xEFBE4786384F25E3,
   0x0FC19DC68B8CD5B5, 0x240CA1CC77AC9C65, 0x2DE92C6F592B0275,
   0x4A7484AA6EA6E483, 0x5CB0A9DCBD41FBD4, 0x76F988DA831153B5,
   0x983E5152EE66DFAB, 0xA831C66D2DB43210, 0xB00327C898FB213F,
   0xBF597FC7BEEF0EE4, 0xC6E00BF33DA88FC2, 0xD5A79147930AA725,
   0x06CA6351E003826F, 0x142929670A0E6E70, 0x27B70A8546D22FFC,
   0x2E1B21385C26C926, 0x4D2C6DFC5AC42AED, 0x53380D139D95B3DF,
   0x650A73548BAF63DE, 0x766A0ABB3C77B2A8, 0x81C2C92E47EDAEE6,
   0x92722C851482353B, 0xA2BFE8A14CF10364, 0xA81A664BBC423001,
   0xC24B8B70D0F89791, 0xC76C51A30654BE30, 0xD192E819D6EF5218,
   0xD69906245565A910, 0xF40E35855771202A, 0x106AA07032BBD1B8,
   0x19A4C116B8D2D0C8, 0x1E376C085141AB53, 0x2748774CDF8EEB99,
   0x34B0BCB5E19B48A8, 0x391C0CB3C5C95A63, 0x4ED8AA4AE3418ACB,
   0x5B9CCA4F7763E373, 0x682E6FF3D6B2B8A3, 0x748F82EE5DEFB2FC,
   0x78A5636F43172F60, 0x84C87814A1F0AB72, 0x8CC702081A6439EC,
   0x90BEFFFA23631E28, 0xA4506CEBDE82BDE9, 0xBEF9A3F7B2C67915,
   0xC67178F2E372532B, 0xCA273ECEEA26619C, 0xD186B8C721C0C207,
   0xEADA7DD6CDE0EB1E, 0xF57D4F7FEE6ED178, 0x06F067AA72176FBA,
   0x0A637DC5A2C898A6, 0x113F9804BEF90DAE, 0x1B710B35131C471B,
   0x28DB77F523047D84, 0x32CAAB7B40C72493, 0x3C9EBE0A15C9BEBC,
   0x431D67C49C100D4C, 0x4CC5D4BECB3E42B6, 0x597F299CFC657E2A,
   0x5FCB6FAB3AD6FAEC, 0x6C44198C4A475817]

/-- SHA-512 initial state, FIPS 180-4 sec 5.3.5. -/
def H512 : List Nat :=
  [0x6A09E667F3BCC908, 0xBB67AE8584CAA73B, 0x3C6EF372FE94F82B,
   0xA54FF53A5F1D36F1, 0x510E527FADE682D1, 0x9B05688C2B3E6C1F,
   0x1F83D9ABFB41BD6B, 0x5BE0CD19137E2179]

/-- SHA-512 message padding: `0x80`, zeros to 112 mod 128, 16-byte
big-endian bit length. -/
def sha512pad (msg : List Nat) : List Nat :=
  msg ++ [0x80] ++ List.replicate ((239 - msg.length % 128) % 128) 0
      ++ beDigits 256 16 (8 * msg.length)

/-- Message-schedule extension: append words 16..79. -/
def sched512 : Nat → List Nat → List Nat
  | 0, w => w
  | f + 1, w =>
    let g := fun i => w.getD (w.length - i) 0
    let s0 := rotr64 1 (g 15) ^^^ rotr64 8 (g 15) ^^^ (g 15 >>> 7)
    let s1 := rotr64 19 (g 2) ^^^ rotr64 61 (g 2) ^^^ (g 2 >>> 6)
    sched512 f (w ++ [(g 16 + s0 + g 7 + s1) % M64])

/-- One SHA-512 round, consuming one `(K, W)` pair. -/
def round512 (st : List Nat) (kw : Nat × Nat) : List Nat :=
  match st with
  | [a, b, c, d, e, f, g, h] =>
    let S1 := rotr64 14 e ^^^ rotr64 18 e ^^^ rotr64 41 e
    let ch := (e &&& f) ^^^ ((e ^^^ (M64 - 1)) &&& g)
    let t1 := (h + S1 + ch + kw.1 + kw.2) % M64
    let S0 := rotr64 28 a ^^^ rotr64 34 a ^^^ rotr64 39 a
    let mj := (a &&& b) ^^^ (a &&& c) ^^^ (b &&& c)
    let t2 := (S0 + mj) % M64
    [(t1 + t2) % M64, a, b, c, (d + t1) % M64, e, f, g]
  | st => st

/-- Compress one 128-byte block into the running state. -/
def compress512 (st : List Nat) (block : List Nat) : List Nat :=
  let w := sched512 64 ((chunks 8 block).map (beVal 256))
  let e := (K512.zip w).foldl round512 st
  (st.zip e).map (fun p => (p.1 + p.2) % M64)

/-- SHA-512 digest (64 bytes) of a byte list. -/
def sha512 (msg : List Nat) : List Nat :=
  ((chunks 128 (sha512pad msg)).foldl compress512 H512).flatMap (beDigits 256 8)

/-- HMAC-SHA512 of `data` under `key`
(the source's `hmac.new(key, data, hashlib.sha512).digest()`): hash the key
down if longer than the 128-byte block, zero-pad, then the nested
ipad/opad construction of RFC 2104. -/
def hmac_sha512 (key data : List Nat) : List Nat :=
  let k0 := if 128 < key.length then sha512 key else key
  let kp := k0 ++ List.replicate (128 - k0.length) 0
  sha512 ((kp.map (· ^^^ 0x5C)) ++ sha512 ((kp.map (· ^^^ 0x36)) ++ data))

/-! ## RIPEMD-160, used only inside `ExtendedKey.fingerprint` -/

/-- Message-word permutation for the left line, rounds 1-5 concatenated. -/
def RMDrL : List Nat :=
  [0, 1, 2, 3, 4, 5, 6, 7, 8, 9, 10, 11, 12, 13, 14, 15,
   7, 4, 13, 1, 10, 6, 15, 3, 12, 0, 9, 5, 2, 14, 11, 8,
   3, 10, 14, 4, 9, 15, 8, 1, 2, 7, 0, 6, 13, 11, 5, 12,
   1, 9, 11, 10, 0, 8, 12, 4, 13, 3, 7, 15, 14, 5, 6, 2,
   4, 0, 5, 9, 7, 12, 2, 10, 14, 1, 3, 8, 11, 6, 15, 13]

/-- Message-word permutation for the right line. -/
def RMDrR : List Nat :=
  [5, 14, 7, 0, 9, 2, 11, 4, 13, 6, 15, 8, 1, 10, 3, 12,
   6, 11, 3, 7, 0, 13, 5, 10, 14, 15, 8, 12, 4, 9, 1, 2,
   15, 5, 1, 3, 7, 14, 6, 9, 11, 8, 12, 2, 10, 0, 4, 13,
   8, 6, 4, 1, 3, 11, 15, 0, 5, 12, 2, 13, 9, 7, 10, 14,
   12, 15, 10, 4, 1, 5, 8, 7, 6, 2, 13, 14, 0, 3, 9, 11]

/-- Rotation amounts for the left line. -/
def RMDsL : List Nat :=
  [11, 14, 15, 12, 5, 8, 7, 9, 11, 13, 14, 15, 6, 7, 9, 8,
   7, 6, 8, 13, 11, 9, 7, 15, 7, 12, 15, 9, 11, 7, 13, 12,
   11, 13, 6, 7, 14, 9, 13, 15, 14, 8, 13, 6, 5, 12, 7, 5,
   11, 12, 14, 15, 14, 15, 9, 8, 9, 14, 5, 6, 8, 6, 5, 12,
   9, 15, 5, 11, 6, 8, 13, 12, 5, 12, 13, 14, 11, 8, 5, 6]

/-- Rotation amounts for the right line. -/
def RMDsR : List Nat :=
  [8, 9, 9, 11, 13, 15, 15, 5, 7, 7, 8, 11, 14, 14, 12, 6,
   9, 13, 15, 7, 12, 8, 9, 11, 7, 7, 12, 7, 6, 15, 13, 11,
   9, 7, 15, 11, 8, 6, 6, 14, 12, 13, 5, 14, 13, 13, 7, 5,
   15, 5, 8, 11, 14, 14, 6, 14, 6, 9, 12, 9, 12, 5, 15, 8,
   8, 5, 12, 9, 12, 5, 14, 6, 8, 13, 6, 5, 15, 13, 11, 11]

/-- Left rotation of a 32-bit word. -/
def rotl32 (r x : Nat) : Nat :=
  ((x <<< r) ||| (x >>> (32 - r))) % M32

/-- The five RIPEMD-160 boolean functions, selected by round number. -/
def rmdF (j x y z : Nat) : Nat :=
  if j < 16 then x ^^^ y ^^^ z
  else if j < 32 then (x &&& y) ||| ((x ^^^ (M32 - 1)) &&& z)
  else if j < 48 then (x ||| (y ^^^ (M32 - 1))) ^^^ z
  else if j < 64 then (x &&& z) ||| (y &&& (z ^^^ (M32 - 1)))
  else x ^^^ (y ||| (z ^^^ (M32 - 1)))

/-- Round-constants of the left line, per 16-step round. -/
def rmdKL (j : Nat) : Nat :=
  if j < 16 then 0 else if j < 32 then 0x5A827999
  else if j < 48 then 0x6ED9EBA1 else if j < 64 then 0x8F1BBCDC
  else 0xA953FD4E

/-- Round-constants of the right line, per 16-step round. -/
def rmdKR (j : Nat) : Nat :=
  if j < 16 then 0x50A28BE6 else if j < 32 then 0x5C4DD124
  else if j < 48 then 0x6D703EF3 else if j < 64 then 0x7A6D76E9
  else 0

/-- One step of either RIPEMD-160 line: the state is `(A, B, C, D, E)`,
`x` the selected message word, `s` the rotation, `K` the constant, `f` the
boolean function already applied to `(B, C, D)`. -/
def rmdStep (st : List Nat) (f x s K : Nat) : List Nat :=
  match st with
  | [a, b, c, d, e] =>
    let t := (rotl32 s ((a + f + x + K) % M32) + e) % M32
    [e, t, b, rotl32 10 c, d]
  | st => st

/-- Advance one line of RIPEMD-160 through steps `j = 0..79` over the
16 message words `X`. -/
def rmdLine (X : List Nat) (rT sT : List Nat) (KT : Nat → Nat)
    (fT : Nat → Nat → Nat → Nat → Nat) (st : List Nat) : List Nat :=
  (List.range 80).foldl
    (fun st j =>
      match st with
      | [_, b, c, d, _] =>
        rmdStep st (fT j b c d) (X.getD (rT.getD j 0) 0) (sT.getD j 0) (KT j)
      | st => st)
    st

/-- Compress one 64-byte RIPEMD-160 block (little-endian words). -/
def rmdCompress (h : List Nat) (block : List Nat) : List Nat :=
  let X := (chunks 4 block).map (leVal 256)
  match rmdLine X RMDrL RMDsL rmdKL rmdF h,
        rmdLine X RMDrR RMDsR rmdKR (fun j => rmdF (79 - j)) h, h with
  | [a1, b1, c1, d1, e1], [a2, b2, c2, d2, e2], [h0, h1, h2, h3, h4] =>
    [(h1 + c1 + d2) % M32, (h2 + d1 + e2) % M32, (h3 + e1 + a2) % M32,
     (h4 + a1 + b2) % M32, (h0 + b1 + c2) % M32]
  | _, _, h => h

/-- RIPEMD-160 padding: like MD4/MD5 — `0x80`, zeros to 56 mod 64, 8-byte
little-endian bit length. -/
def rmdPad (msg : List Nat) : List Nat :=
  msg ++ [0x80] ++ List.replicate ((119 - msg.length % 64) % 64) 0
      ++ leDigits 256 8 (8 * msg.length)

/-- RIPEMD-160 initial state. -/
def RMDH0 : List Nat :=
  [0x67452301, 0xEFCDAB89, 0x98BADCFE, 0x10325476, 0xC3D2E1F0]

/-- RIPEMD-160 digest (20 bytes): `hashlib.new("ripemd160", -)`. -/
def ripemd160 (msg : List Nat) : List Nat :=
  ((chunks 64 (rmdPad msg)).foldl rmdCompress RMDH0).flatMap (leDigits 256 4)

/-! ## Error model

Every Python `raise` site of the embedded code is mapped to one
constructor:

* `invalidSeedLength` — `from_seed`: "Seed must be 16-64 bytes".
* `invalidMasterKey` — `from_seed`: "Invalid master key".
* `invalidChildKey` — `derive_child`: "Invalid child key" (both sites).
* `invalidDerivation` — `derive_child`: "Cannot derive hardened child from
  public key".
* `invalidPath` — `derive_path`: "Path must start with 'm'", and the
  `ValueError` that `int(part)` raises on a malformed segment.
* `notImplemented` — `derive_child`: the `NotImplementedError` on the
  public-parent branch.
* `invalidKey` — `_point`: "Invalid private key" (scalar multiple of the
  curve order).
* `powValueError` — Python `pow(x, -1, P)` on a non-invertible base.
* `structError` — `struct.pack(">I", i)` with `i` outside `[0, 2^32)`.
* `byteValueError` — `bytes([d])` with `d` outside `[0, 255]`.
* `checksumMismatch` — `base58check_decode`: "Invalid Base58Check
  checksum".
* `invalidCharacter` — `ALPHABET.index` failing in `base58_decode`.
* `invalidEntropyLength` — `entropy_to_mnemonic`: "Invalid entropy
  length".
* `indexError` — Python list indexing out of range (`wordlist[index]`).
-/

/-- Exceptions of the embedded code; constructors map 1:1 to `raise`
families of the source (see the table above). -/
inductive Err where
  | invalidSeedLength | invalidMasterKey | invalidChildKey
  | invalidDerivation | invalidPath | notImplemented | invalidKey
  | powValueError | structError | byteValueError | checksumMismatch
  | invalidCharacter | invalidEntropyLength | indexError
  deriving DecidableEq, Repr

/-! ## secp256k1 scalar multiplication — the `_point` helper of bip32.py -/

/-- The secp256k1 field prime, from `_point`. -/
def secpP : Nat :=
  0xFFFFFFFFFFFFFFFFFFFFFFFFFFFFFFFFFFFFFFFFFFFFFFFFFFFFFFFEFFFFFC2F

/-- The secp256k1 curve order `N` of bip32.py. -/
def secpN : Nat :=
  0xFFFFFFFFFFFFFFFFFFFFFFFFFFFFFFFEBAAEDCE6AF48A03BBFD25E8CD0364141

/-- Generator x-coordinate. -/
def secpGX : Nat :=
  0x79BE667EF9DCBBAC55A06295CE870B07029BFCDB2DCE28D959F2815B16F81798

/-- Generator y-coordinate. -/
def secpGY : Nat :=
  0x483ADA7726A3C4655DA4FBFC0E1108A8FD17B448A68554199C47D08FFB10D4B8

/-- Fast modular exponentiation, fuel on the exponent (`e` halves each
step, so fuel `e + 1` always suffices). -/
def powModAux (m : Nat) : Nat → Nat → Nat → Nat → Nat
  | 0, _, _, acc => acc
  | f + 1, b, e, acc =>
    if e = 0 then acc
    else powModAux m f (b * b % m) (e / 2) (if e % 2 = 1 then acc * b % m else acc)

/-- Modular exponentiation `b ^ e mod m`. -/
def powMod (b e m : Nat) : Nat := powModAux m (e + 1) (b % m) e (1 % m)

/-- Python `pow(x, -1, P)` for the prime `P = secpP`: the inverse exists
iff `P` does not divide `x` (it is computed here by Fermat's little
theorem, which agrees with Python's extended-Euclid inverse on every
invertible residue); on a non-invertible base Python raises `ValueError`. -/
def modInvP (x : Int) : Except Err Nat :=
  if x % (secpP : Int) = 0 then .error .powValueError
  else .ok (powMod (x % (secpP : Int)).toNat (secpP - 2) secpP)

/-- A finite curve point as affine coordinates; `Option` adds the point at
infinity (`None` in the source). -/
def PointO : Type := Option (Nat × Nat)

/-- The nested `point_add` of `_point`: infinity cases, the inverse-pair
case (same x, different y), tangent doubling, and chord addition. The
difference computations are over `Int` and reduced with Python's
nonnegative `%`. -/
def point_add (p1 p2 : PointO) : Except Err PointO :=
  match p1, p2 with
  | none, q => .ok q
  | p, none => .ok p
  | some (x1, y1), some (x2, y2) =>
    if x1 = x2 ∧ y1 ≠ y2 then .ok none
    else do
      let lam : Nat ←
        if x1 = x2 then do
          let i ← modInvP (2 * y1)
          pure ((3 * x1 * x1 * i) % secpP)
        else do
          let i ← modInvP ((x2 : Int) - (x1 : Int))
          pure ((((y2 : Int) - (y1 : Int)) * i % (secpP : Int)).toNat)
      let x3 := (((lam * lam : Nat) - (x1 : Int) - x2) % (secpP : Int)).toNat
      let y3 := (((lam : Int) * ((x1 : Int) - (x3 : Int)) - y1) % (secpP : Int)).toNat
      .ok (some (x3, y3))

/-- The `while k_val` double-and-add loop of `scalar_multiply`; the fuel
only has to dominate the number of halvings of `k`, which `k` itself
does. -/
def smLoop : Nat → Nat → PointO → PointO → Except Err PointO
  | 0, _, _, result => .ok result
  | f + 1, k, addend, result =>
    if k = 0 then .ok result
    else do
      let result' ← if k % 2 = 1 then point_add result addend else .ok result
      let addend' ← point_add addend addend
      smLoop f (k / 2) addend' result'

/-- The nested `scalar_multiply` of `_point`. -/
def scalar_multiply (k : Nat) (pt : PointO) : Except Err PointO :=
  smLoop (k + 1) k pt none

/-- Serialize a 256-bit integer, `_ser256`. -/
def ser256 (k : Nat) : List Nat := beDigits 256 32 k

/-- Parse a 256-bit integer from bytes, `_parse256`. -/
def parse256 (b : List Nat) : Nat := beVal 256 b

/-- Compressed public key of a private scalar: `_point` of bip32.py —
`k * G` by double-and-add, `ValueError` if the product is the point at
infinity, else a parity byte `0x02`/`0x03` followed by the x-coordinate. -/
def point (k : Nat) : Except Err (List Nat) := do
  let pub ← scalar_multiply k (some (secpGX, secpGY))
  match pub with
  | none => .error .invalidKey
  | some (x, y) => .ok ((if y % 2 = 0 then [0x02] else [0x03]) ++ ser256 x)

/-! ## Base58 / Base58Check — utils/base58.py -/

/-- The 58-character alphabet of base58.py. -/
def ALPHABET : List Char := "123456789ABCDEFGHJKLMNPQRSTUVWXYZabcdefghijkmnopqrstuvwxyz".data

/-- Python `bytes.index`-style lookup: position of the first occurrence,
`ValueError` (here `invalidCharacter`) when absent. -/
def pyIndex (l : List Char) (c : Char) : Except Err Nat :=
  match l.findIdx? (· == c) with
  | some i => .ok i
  | none => .error .invalidCharacter

/-- Encode bytes to Base58: count leading zero bytes (they become leading
ones), then repeated divmod by 58 (little-endian digits, reversed —
i.e. the minimal big-endian expansion), each digit mapped through the
alphabet. -/
def base58_encode (data : List Nat) : List Char :=
  let zeros := (data.takeWhile (· == 0)).length
  let num := beVal 256 data
  List.replicate zeros '1'
    ++ (minDigits 58 num).map (fun d => ALPHABET.getD d '1')

/-- The `for c in s: num = num * 58 + ALPHABET.index(...)` loop of
`base58_decode`. -/
def b58fold : List Char → Nat → Except Err Nat
  | [], acc => .ok acc
  | c :: cs, acc => do b58fold cs (acc * 58 + (← pyIndex ALPHABET c))

/-- Decode a Base58 string: count leading ones, fold every character
(leading ones contribute zero), then the minimal big-endian byte dump of
the accumulated integer (`num.to_bytes((num.bit_length() + 7) // 8)`),
with the leading zero bytes restored. -/
def base58_decode (s : List Char) : Except Err (List Nat) := do
  let ones := (s.takeWhile (· == '1')).length
  let num ← b58fold s 0
  let res := if num > 0 then beDigits 256 ((bitLength num + 7) / 8) num else []
  pure (List.replicate ones 0 ++ res)

/-- Four-byte double-SHA256 checksum, `_checksum` of base58.py. -/
def b58checksum (payload : List Nat) : List Nat :=
  (sha256 (sha256 payload)).take 4

/-- Base58Check encoding: version and payload concatenated, checksum
appended, the whole Base58-encoded. -/
def base58check_encode (version payload : List Nat) : List Char :=
  base58_encode ((version ++ payload) ++ b58checksum (version ++ payload))

/-- Base58Check decoding: split off the last four bytes (Python
`data[:-4]` / `data[-4:]`), recompute and compare the checksum, and return
`(payload[:1], payload[1:])` — note the version is always taken to be the
single first byte. -/
def base58check_decode (s : List Char) : Except Err (List Nat × List Nat) := do
  let data ← base58_decode s
  let payload := data.take (data.length - 4)
  let checksum := data.drop (data.length - 4)
  if b58checksum payload ≠ checksum then .error .checksumMismatch
  else pure (payload.take 1, payload.drop 1)

/-! ## ExtendedKey and BIP-32 operations — bip32.py -/

/-- Serialize a 32-bit unsigned integer big-endian, `_ser32`;
`struct.pack(">I", i)` raises `struct.error` outside `[0, 2^32)`. -/
def ser32 (i : Int) : Except Err (List Nat) :=
  if 0 ≤ i ∧ i < 2 ^ 32 then .ok (beDigits 256 4 i.toNat) else .error .structError

/-- Version bytes for xprv serialization. -/
def MAINNET_PRIVATE : List Nat := [0x04, 0x88, 0xAD, 0xE4]

/-- Version bytes for xpub serialization. -/
def MAINNET_PUBLIC : List Nat := [0x04, 0x88, 0xB2, 0x1E]

/-- A BIP-32 extended key: `key` holds the 32-byte private scalar when
`is_private`, or the 33-byte compressed public point otherwise. The
Python object is immutable by convention (no method mutates `self`), which
the pure embedding makes automatic. -/
structure ExtendedKey where
  key : List Nat
  chain_code : List Nat
  depth : Nat
  parent_fingerprint : List Nat
  child_index : Int
  is_private : Bool
  deriving DecidableEq, Repr

namespace ExtendedKey

/-- The compressed public key (`public_key` property): computed from the
scalar for a private node, the stored bytes for a public one. -/
def public_key (k : ExtendedKey) : Except Err (List Nat) :=
  if k.is_private then point (parse256 k.key) else .ok k.key

/-- First four bytes of RIPEMD160(SHA256(public key)) — the `fingerprint`
property. -/
def fingerprint (k : ExtendedKey) : Except Err (List Nat) := do
  let pub ← k.public_key
  .ok ((ripemd160 (sha256 pub)).take 4)

/-- Base58Check xprv/xpub serialization of an extended key; `bytes([depth])`
raises `ValueError` when the depth no longer fits one byte. -/
def serialize (k : ExtendedKey) : Except Err (List Char) := do
  let version := if k.is_private then MAINNET_PRIVATE else MAINNET_PUBLIC
  let depthByte ← if k.depth < 256 then .ok [k.depth] else .error .byteValueError
  let idx ← ser32 k.child_index
  let payload := version ++ depthByte ++ k.parent_fingerprint ++ idx
      ++ k.chain_code ++ (if k.is_private then 0x00 :: k.key else k.key)
  .ok (base58_encode (payload ++ b58checksum payload))

/-- Convert a private extended key to the public-only key carrying the
same chain code and metadata; returns `self` unchanged when already
public. -/
def neuter (k : ExtendedKey) : Except Err ExtendedKey :=
  if !k.is_private then .ok k
  else do
    let pub ← k.public_key
    .ok ⟨pub, k.chain_code, k.depth, k.parent_fingerprint, k.child_index, false⟩

end ExtendedKey

/-- The HMAC key of `from_seed`: the ASCII bytes of "Bitcoin seed". -/
def bitcoinSeed : List Nat := "Bitcoin seed".data.map Char.toNat

/-- Generate the master extended key from a seed (`from_seed`): seed
length bounds, HMAC-SHA512 under "Bitcoin seed", left half the private
scalar (range-checked), right half the chain code. -/
def from_seed (seed : List Nat) : Except Err ExtendedKey :=
  if seed.length < 16 ∨ 64 < seed.length then .error .invalidSeedLength
  else
    let I := hmac_sha512 bitcoinSeed seed
    let IL := I.take 32
    let IR := I.drop 32
    if parse256 IL = 0 ∨ secpN ≤ parse256 IL then .error .invalidMasterKey
    else .ok ⟨IL, IR, 0, [0, 0, 0, 0], 0, true⟩

/-- The HMAC payload of one derivation step: `0x00 ‖ key ‖ ser32(index)`
for a hardened index (requiring a private parent), else
`publicKey ‖ ser32(index)`. -/
def derive_data (parent : ExtendedKey) (index : Int) : Except Err (List Nat) :=
  if index ≥ 0x80000000 then
    if !parent.is_private then .error .invalidDerivation
    else do pure (0x00 :: parent.key ++ (← ser32 index))
  else do
    pure ((← parent.public_key) ++ (← ser32 index))

/-- Single-step child derivation (`derive_child`): HMAC-SHA512 under the
parent chain code, range check on the left half, then the private-parent
scalar addition — the public-parent branch of the source raises
`NotImplementedError` before any curve arithmetic. -/
def derive_child (parent : ExtendedKey) (index : Int) : Except Err ExtendedKey := do
  let data ← derive_data parent index
  let I := hmac_sha512 parent.chain_code data
  let IL := I.take 32
  let IR := I.drop 32
  let il_int := parse256 IL
  if il_int ≥ secpN then .error .invalidChildKey
  else if parent.is_private then
    let key_int := (il_int + parse256 parent.key) % secpN
    if key_int = 0 then .error .invalidChildKey
    else do
      let fp ← parent.fingerprint
      .ok ⟨ser256 key_int, IR, parent.depth + 1, fp, index, true⟩
  else .error .notImplemented

/-! ## Python string helpers used by `derive_path` and bip39.py -/

/-- Python whitespace characters recognized by `str.split()` /
`str.strip()` (ASCII subset, which covers every string this code builds). -/
def pyIsSpace (c : Char) : Bool :=
  c.toNat = 32 ∨ c.toNat = 9 ∨ c.toNat = 10 ∨ c.toNat = 13 ∨
  c.toNat = 11 ∨ c.toNat = 12

/-- Python `s.split(sep)` for a one-character separator: splits at every
occurrence, keeping empty fields (`"".split("/") == [""]`). -/
def splitOnChar (sep : Char) : List Char → List (List Char)
  | [] => [[]]
  | c :: rest =>
    match splitOnChar sep rest with
    | [] => [[]]
    | g :: gs => if c = sep then [] :: g :: gs else (c :: g) :: gs

/-- Accumulator pass behind `splitWs`: `acc` is the non-space run read so
far. -/
def splitWsAux : List Char → List Char → List (List Char)
  | [], acc => if acc.isEmpty then [] else [acc]
  | c :: rest, acc =>
    if pyIsSpace c then
      if acc.isEmpty then splitWsAux rest [] else acc :: splitWsAux rest []
    else splitWsAux rest (acc ++ [c])

/-- Python `s.strip().split()`: maximal non-whitespace runs, in order. -/
def splitWs (s : List Char) : List (List Char) := splitWsAux s []

/-- Decimal digits (with PEP 515 single underscores between digits) after
the optional sign: the accumulator variant. `none` models the
`ValueError` of `int(...)`. -/
def pyDigitsAux : List Char → Nat → Option Nat
  | [], acc => some acc
  | c :: rest, acc =>
    if c.isDigit then pyDigitsAux rest (10 * acc + (c.toNat - 48))
    else if c.toNat = 95 then
      match rest with
      | d :: rest2 =>
        if d.isDigit then pyDigitsAux rest2 (10 * acc + (d.toNat - 48))
        else none
      | [] => none
    else none

/-- Digit-string value: nonempty, must start with a digit. -/
def pyDigits : List Char → Option Nat
  | [] => none
  | c :: rest => if c.isDigit then pyDigitsAux rest (c.toNat - 48) else none

/-- Python `int(s)` (decimal): strip surrounding whitespace, optional
sign, then digits with underscore grouping. ASCII digits only — the only
divergence from CPython, which also accepts Unicode decimal digits that no
caller in this repository produces. The `ValueError` is surfaced as
`invalidPath`, matching how `derive_path` (the sole caller) lets it
propagate. -/
def pyInt (s : List Char) : Except Err Int :=
  let t := (s.dropWhile pyIsSpace).reverse.dropWhile pyIsSpace |>.reverse
  match t with
  | '+' :: rest =>
    match pyDigits rest with
    | some n => .ok (n : Int)
    | none => .error .invalidPath
  | '-' :: rest =>
    match pyDigits rest with
    | some n => .ok (-(n : Int))
    | none => .error .invalidPath
  | rest =>
    match pyDigits rest with
    | some n => .ok (n : Int)
    | none => .error .invalidPath

/-- One `for part in path.split("/")[1:]` iteration of `derive_path`:
strip a trailing hardened marker (apostrophe, codepoint 39, or letter h),
parse the decimal index, add the hardened offset, and derive. -/
def derive_path_step (key : ExtendedKey) (part : List Char) : Except Err ExtendedKey := do
  let tick := part.getLast? = some (Char.ofNat 39) ∨ part.getLast? = some 'h'
  let index ←
    if tick then do
      let v ← pyInt (part.dropLast)
      pure (v + 0x80000000)
    else pyInt part
  derive_child key index

/-- Walk a BIP-32 path string (`derive_path`): require the leading "m",
return the master for the bare "m", else fold `derive_child` over the
slash-separated segments after the first component. -/
def derive_path (master : ExtendedKey) (path : List Char) : Except Err ExtendedKey :=
  if ¬ path.take 1 = ['m'] then .error .invalidPath
  else if path = ['m'] then .ok master
  else (splitOnChar '/' path).tail.foldlM derive_path_step master

/-! ## BIP-39 — bip39.py

The wordlist is the one piece of repository data not under `src/`
(`wordlist/english.txt` is downloaded by a script), so the functions take
the loaded wordlist as an explicit `List (List Char)` parameter; the
loader's contract (exactly 2048 newline-separated words) becomes
hypotheses of the theorems. -/

/-- Sequential fallible map, the `for`-loop-with-`append` of
`entropy_to_mnemonic`: the first failure aborts. -/
def mapExcept (f : α → Except Err β) : List α → Except Err (List β)
  | [] => .ok []
  | x :: xs => do pure ((← f x) :: (← mapExcept f xs))

/-- Sequential optional map, the list comprehension inside the
`try/except` of `validate_mnemonic`: any failed lookup fails the whole
conversion. -/
def mapOption (f : α → Option β) : List α → Option (List β)
  | [] => some []
  | x :: xs => do pure ((← f x) :: (← mapOption f xs))

/-- Python `" ".join(words)`. -/
def joinWords : List (List Char) → List Char
  | [] => []
  | [w] => w
  | w :: ws => w ++ ' ' :: joinWords ws

/-- Checksum bits of an entropy block, `_checksum_bits`: the leading
`len(entropy) * 8 / 32` bits of `SHA256(entropy)`, as 0/1 digits
(`bin(...)[2:].zfill(256)` sliced). -/
def checksum_bits (entropy : List Nat) : List Nat :=
  (zfill 256 (pyBin (beVal 256 (sha256 entropy)))).take (entropy.length * 8 / 32)

/-- Convert entropy bytes to the mnemonic sentence
(`entropy_to_mnemonic`): entropy bits plus checksum bits, cut into 11-bit
groups, each indexing the wordlist; the words are space-joined. -/
def entropy_to_mnemonic (wordlist : List (List Char)) (entropy : List Nat) :
    Except Err (List Char) :=
  if ¬ (entropy.length = 16 ∨ entropy.length = 20 ∨ entropy.length = 24 ∨
        entropy.length = 28 ∨ entropy.length = 32) then
    .error .invalidEntropyLength
  else do
    let entropy_bits := zfill (entropy.length * 8) (pyBin (beVal 256 entropy))
    let all_bits := entropy_bits ++ checksum_bits entropy
    let words ← mapExcept (fun g =>
      match wordlist.get? (beVal 2 g) with
      | some w => .ok w
      | none => .error .indexError) (chunks 11 all_bits)
    .ok (joinWords words)

/-- Validate a mnemonic sentence (`validate_mnemonic`): split on
whitespace, check the word count, look every word up (first occurrence;
a missing word is the caught `ValueError`), rebuild the bit string from
the 11-bit indices, split off the trailing `len(words) / 3` checksum
bits, reassemble the entropy bytes and compare the recomputed checksum. -/
def validate_mnemonic (wordlist : List (List Char)) (mnemonic : List Char) : Bool :=
  let words := splitWs mnemonic
  if ¬ (words.length = 12 ∨ words.length = 15 ∨ words.length = 18 ∨
        words.length = 21 ∨ words.length = 24) then false
  else
    match mapOption (fun w => wordlist.findIdx? (· == w)) words with
    | none => false
    | some indices =>
      let bits := (indices.map (fun i => zfill 11 (pyBin i))).flatten
      let cs_len := words.length / 3
      let entropy_bits := bits.take (bits.length - cs_len)
      let checksum := bits.drop (bits.length - cs_len)
      let entropy := beDigits 256 (entropy_bits.length / 8) (beVal 2 entropy_bits)
      checksum = checksum_bits entropy

/-- A decimal-numeral word, used only to build the concrete wordlist of
the claim-C9 witness. -/
def decWord (n : Nat) : List Char :=
  (if n = 0 then [0] else minDigits 10 n).map (fun d => Char.ofNat (48 + d))

/-- A concrete wellformed 2048-entry wordlist (the decimal numerals
0..2047), used only by the claim-C9 witness. -/
def wordlist0 : List (List Char) := (List.range 2048).map decWord

/-- Modelled from the spec (for claim C3 only): the path grammar
`"m" ("/" segment)*`, each segment an unsigned decimal integer optionally
suffixed by a hardened marker (apostrophe, codepoint 39, or `h`). Splitting
on `/` is a faithful rendering because a conforming segment never contains
a slash. -/
def specPathSegment (s : List Char) : Bool :=
  let core := if s.getLast? = some (Char.ofNat 39) ∨ s.getLast? = some 'h'
    then s.dropLast else s
  !core.isEmpty && core.all (fun c => c.isDigit)

/-- Modelled from the spec (for claim C3 only): a full path conforming to
the grammar is the bare `m` followed by conforming slash-separated
segments. -/
def specPathOk (p : List Char) : Bool :=
  match splitOnChar '/' p with
  | [] => false
  | first :: segs => first == ['m'] && segs.all specPathSegment

/-! ## Generic facts about big-endian digit lists -/

theorem beVal_foldl (B : Nat) (l : List Nat) (a : Nat) :
    l.foldl (fun a d => B * a + d) a = a * B ^ l.length + beVal B l := by
  induction l generalizing a with
  | nil => simp [beVal]
  | cons d t ih =>
    have h2 : beVal B (d :: t) = d * B ^ t.length + beVal B t := by
      show List.foldl (fun a d => B * a + d) (B * 0 + d) t = _
      rw [ih (B * 0 + d)]; ring
    show List.foldl (fun a d => B * a + d) (B * a + d) t
        = a * B ^ (t.length + 1) + beVal B (d :: t)
    rw [ih (B * a + d), h2]; ring

theorem beVal_cons (B d : Nat) (l : List Nat) :
    beVal B (d :: l) = d * B ^ l.length + beVal B l := by
  simpa [beVal] using beVal_foldl B l d

theorem beVal_append (B : Nat) (l1 l2 : List Nat) :
    beVal B (l1 ++ l2) = beVal B l1 * B ^ l2.length + beVal B l2 := by
  simpa [beVal] using beVal_foldl B l2 (beVal B l1)

theorem beVal_concat (B d : Nat) (l : List Nat) :
    beVal B (l ++ [d]) = B * beVal B l + d := by
  simp [beVal_append, beVal, Nat.mul_comm]

theorem beDigits_length (B L n : Nat) : (beDigits B L n).length = L := by
  induction L generalizing n with
  | zero => rfl
  | succ L ih => simp [beDigits, ih]

theorem beVal_beDigits (B L n : Nat) (h : n < B ^ L) :
    beVal B (beDigits B L n) = n := by
  induction L generalizing n with
  | zero =>
    have hn : n = 0 := Nat.lt_one_iff.mp (by simpa using h)
    simp [beVal, beDigits, hn]
  | succ L ih =>
    rw [beDigits, beVal_concat, ih (n / B) ?_, Nat.div_add_mod]
    exact Nat.div_lt_of_lt_mul (by rw [Nat.pow_succ, Nat.mul_comm] at h; exact h)

theorem beDigits_beVal (B : Nat) (l : List Nat) (hB : 0 < B)
    (hd : ∀ d ∈ l, d < B) :
    beDigits B l.length (beVal B l) = l := by
  induction l using List.reverseRecOn with
  | nil => rfl
  | append_singleton t d ih =>
    have hdB : d < B := hd d (by simp)
    simp only [List.length_append, List.length_singleton, beVal_concat, beDigits]
    rw [Nat.mul_add_div hB, Nat.div_eq_of_lt hdB, Nat.add_zero,
        Nat.mul_add_mod, Nat.mod_eq_of_lt hdB,
        ih (fun x hx => hd x (by simp [hx]))]

theorem mem_beDigits_lt (B L n : Nat) (hB : 0 < B) :
    ∀ d ∈ beDigits B L n, d < B := by
  induction L generalizing n with
  | zero => simp [beDigits]
  | succ L ih =>
    intro d hdm
    rw [beDigits] at hdm
    rcases List.mem_append.mp hdm with h | h
    · exact ih _ d h
    · simp only [List.mem_singleton] at h
      exact h ▸ Nat.mod_lt _ hB

theorem beVal_lt (B : Nat) (l : List Nat) (hd : ∀ d ∈ l, d < B) :
    beVal B l < B ^ l.length := by
  induction l with
  | nil => simp [beVal]
  | cons d t ih =>
    rw [beVal_cons, List.length_cons, Nat.pow_succ]
    have h1 : beVal B t < B ^ t.length := ih (fun x hx => hd x (by simp [hx]))
    have h2 : d + 1 ≤ B := hd d (by simp)
    calc d * B ^ t.length + beVal B t < (d + 1) * B ^ t.length := by
          rw [Nat.add_mul, Nat.one_mul]; omega
      _ ≤ B * B ^ t.length := Nat.mul_le_mul_right _ h2
      _ = B ^ t.length * B := Nat.mul_comm _ _

theorem minDigitsAux_adequate (B : Nat) (hB : 2 ≤ B) :
    ∀ n f g, n ≤ f → n ≤ g → minDigitsAux B f n = minDigitsAux B g n := by
  intro n
  induction n using Nat.strong_induction_on with
  | _ n ih =>
    intro f g hf hg
    match f, g with
    | f + 1, g + 1 =>
      by_cases h0 : n = 0
      · simp [minDigitsAux, h0]
      · have hdiv : n / B < n := Nat.div_lt_self (Nat.pos_of_ne_zero h0) hB
        simp only [minDigitsAux, if_neg h0]
        rw [ih (n / B) hdiv f (n + 1) (by omega) (by omega),
            ih (n / B) hdiv (n + 1) g (by omega) (by omega)]
    | 0, 0 => rfl
    | 0, g + 1 =>
      have : n = 0 := Nat.le_zero.mp hf
      simp [minDigitsAux, this]
    | f + 1, 0 =>
      have : n = 0 := Nat.le_zero.mp hg
      simp [minDigitsAux, this]

theorem minDigits_unfold (B n : Nat) (hB : 2 ≤ B) (hn : 0 < n) :
    minDigits B n = minDigits B (n / B) ++ [n % B] := by
  have h1 : minDigitsAux B (n + 1) n
      = if n = 0 then [] else minDigitsAux B n (n / B) ++ [n % B] := rfl
  show minDigitsAux B (n + 1) n = minDigitsAux B (n / B + 1) (n / B) ++ [n % B]
  rw [h1, if_neg (by omega),
      minDigitsAux_adequate B hB (n / B) n (n / B + 1)
        (le_of_lt (Nat.div_lt_self hn hB)) (by omega)]

theorem beVal_minDigits (B : Nat) (hB : 2 ≤ B) (n : Nat) :
    beVal B (minDigits B n) = n := by
  induction n using Nat.strong_induction_on with
  | _ n ih =>
    by_cases h0 : n = 0
    · simp [h0, minDigits, minDigitsAux, beVal]
    · rw [minDigits_unfold B n hB (Nat.pos_of_ne_zero h0), beVal_concat,
          ih (n / B) (Nat.div_lt_self (Nat.pos_of_ne_zero h0) hB)]
      exact Nat.div_add_mod n B

theorem mem_minDigits_lt (B n : Nat) (hB : 2 ≤ B) :
    ∀ d ∈ minDigits B n, d < B := by
  induction n using Nat.strong_induction_on with
  | _ n ih =>
    by_cases h0 : n = 0
    · simp [h0, minDigits, minDigitsAux]
    · rw [minDigits_unfold B n hB (Nat.pos_of_ne_zero h0)]
      intro d hdm
      rcases List.mem_append.mp hdm with h | h
      · exact ih (n / B) (Nat.div_lt_self (Nat.pos_of_ne_zero h0) hB) d h
      · simp only [List.mem_singleton] at h
        exact h ▸ Nat.mod_lt _ (by omega)

theorem minDigits_ne_nil (B n : Nat) (hB : 2 ≤ B) (hn : 0 < n) :
    minDigits B n ≠ [] := by
  rw [minDigits_unfold B n hB hn]; simp

theorem minDigits_head_ne_zero (B n : Nat) (hB : 2 ≤ B) (hn : 0 < n) :
    ∀ d t, minDigits B n = d :: t → d ≠ 0 := by
  induction n using Nat.strong_induction_on with
  | _ n ih =>
    intro d t heq
    rw [minDigits_unfold B n hB hn] at heq
    by_cases hsmall : n < B
    · have hd0 : n / B = 0 := Nat.div_eq_of_lt hsmall
      rw [hd0] at heq
      have h2 : ([n % B] : List Nat) = d :: t := by
        simpa [minDigits, minDigitsAux] using heq
      injection h2 with h3 _
      rw [← h3, Nat.mod_eq_of_lt hsmall]; omega
    · have hpos : 0 < n / B := Nat.div_pos (by omega) (by omega)
      rcases hh : minDigits B (n / B) with _ | ⟨d', t'⟩
      · exact absurd hh (minDigits_ne_nil B (n / B) hB hpos)
      · rw [hh] at heq
        rw [List.cons_append] at heq
        injection heq with h3 _
        exact h3 ▸ ih (n / B) (Nat.div_lt_self (by omega) hB) hpos d' t' hh

theorem minDigits_of_bounds (B : Nat) (hB : 2 ≤ B) :
    ∀ L n, B ^ L ≤ n → n < B ^ (L + 1) → minDigits B n = beDigits B (L + 1) n := by
  intro L
  induction L with
  | zero =>
    intro n h1 h2
    have h1' : 1 ≤ n := by simpa using h1
    have h2' : n < B := by simpa using h2
    rw [minDigits_unfold B n hB (by omega), Nat.div_eq_of_lt h2']
    rfl
  | succ L ih =>
    intro n h1 h2
    have hBpos : 0 < B := by omega
    have hnpos : 0 < n := Nat.lt_of_lt_of_le (pow_pos hBpos (L + 1)) h1
    have hd1 : B ^ L ≤ n / B := (Nat.le_div_iff_mul_le hBpos).mpr
      (by rw [← Nat.pow_succ]; exact h1)
    have hd2 : n / B < B ^ (L + 1) := (Nat.div_lt_iff_lt_mul hBpos).mpr
      (by rw [← Nat.pow_succ]; exact h2)
    rw [minDigits_unfold B n hB hnpos, ih (n / B) hd1 hd2]
    rfl

theorem minDigits_beVal (B : Nat) (hB : 2 ≤ B) (l : List Nat)
    (hd : ∀ x ∈ l, x < B) (d0 : Nat) (t : List Nat) (hl : l = d0 :: t)
    (h0 : d0 ≠ 0) :
    minDigits B (beVal B l) = l := by
  subst hl
  have hlow : B ^ t.length ≤ beVal B (d0 :: t) := by
    rw [beVal_cons]
    have : 1 * B ^ t.length ≤ d0 * B ^ t.length :=
      Nat.mul_le_mul_right _ (by omega)
    omega
  have hhigh : beVal B (d0 :: t) < B ^ (t.length + 1) := by
    simpa using beVal_lt B (d0 :: t) hd
  rw [minDigits_of_bounds B hB t.length _ hlow hhigh]
  have := beDigits_beVal B (d0 :: t) (by omega) hd
  simpa using this

theorem bitLength_bounds (n : Nat) (hn : 0 < n) :
    0 < bitLength n ∧ 2 ^ (bitLength n - 1) ≤ n ∧ n < 2 ^ bitLength n := by
  obtain ⟨d0, t, hmd⟩ : ∃ d0 t, minDigits 2 n = d0 :: t := by
    rcases hmm : minDigits 2 n with _ | ⟨d0, t⟩
    · exact absurd hmm (minDigits_ne_nil 2 n (le_refl 2) hn)
    · exact ⟨d0, t, rfl⟩
  have hd0 : d0 ≠ 0 := minDigits_head_ne_zero 2 n (le_refl 2) hn d0 t hmd
  have hdlt : ∀ d ∈ minDigits 2 n, d < 2 := mem_minDigits_lt 2 n (le_refl 2)
  have hd1 : d0 = 1 := by
    have := hdlt d0 (hmd ▸ List.mem_cons_self _ _)
    omega
  have hval : beVal 2 (minDigits 2 n) = n := beVal_minDigits 2 (le_refl 2) n
  refine ⟨by unfold bitLength; rw [hmd]; simp, ?_, ?_⟩
  · have h2 : 2 ^ t.length ≤ beVal 2 (d0 :: t) := by
      rw [beVal_cons, hd1]
      omega
    rw [hmd] at hval
    unfold bitLength
    rw [hmd]
    simpa [hval] using h2
  · have h3 := beVal_lt 2 (minDigits 2 n) hdlt
    rw [hval] at h3
    exact h3

/-! ## Monadic unfolding helpers -/

@[simp]
theorem ok_bind {ε α β : Type} (a : α) (f : α → Except ε β) :
    (Except.ok a : Except ε α) >>= f = f a := rfl

@[simp]
theorem error_bind {ε α β : Type} (e : ε) (f : α → Except ε β) :
    (Except.error e : Except ε α) >>= f = Except.error e := rfl

/-! ## Claim C6 — hardened derivation from a public-only key -/

/-- C6: for every public-only extended key and every hardened index
(`index ≥ 2^31`), `derive_child` fails with `InvalidDerivation` (the
source's `ValueError: Cannot derive hardened child from public key`), and
no child is produced. -/
theorem derive_child_hardened_from_public_fails (parent : ExtendedKey) (index : Int)
    (hpub : parent.is_private = false) (hard : 0x80000000 ≤ index) :
    derive_child parent index = .error .invalidDerivation := by
  unfold derive_child derive_data
  rw [if_pos hard, hpub]
  rfl

/-- Witness for C6 at a concrete public-only key and the first hardened
index `2^31`. -/
theorem derive_child_hardened_from_public_fails_witness :
    (⟨0x02 :: List.replicate 32 7, List.replicate 32 1, 0, [0, 0, 0, 0], 0, false⟩ :
        ExtendedKey).is_private = false ∧
    (0x80000000 : Int) ≤ 0x80000000 ∧
    derive_child ⟨0x02 :: List.replicate 32 7, List.replicate 32 1, 0, [0, 0, 0, 0], 0, false⟩
      0x80000000 = .error .invalidDerivation :=
  ⟨rfl, le_refl _,
    derive_child_hardened_from_public_fails _ 0x80000000 rfl (le_refl _)⟩

/-! ## Claim C7 — `derive_path` on the bare path "m" -/

/-- C7: for every extended key, `derive_path master "m"` returns the
master itself, unchanged. -/
theorem derive_path_m_identity (master : ExtendedKey) :
    derive_path master ['m'] = .ok master := rfl

/-! ## Claim C4 — master key generation from a seed -/

/-- C4: for a seed of 16 to 64 bytes, `from_seed` computes
`I = HMAC-SHA512("Bitcoin seed", seed)`, and when `0 < IL < n` returns the
root key `⟨IL, IR, depth 0, zero fingerprint, index 0, private⟩`; a seed
length outside `[16, 64]` fails with `InvalidSeedLength` and an
out-of-range `IL` fails with `InvalidMasterKey`. -/
theorem from_seed_spec (seed : List Nat) :
    (seed.length < 16 ∨ 64 < seed.length →
      from_seed seed = .error .invalidSeedLength) ∧
    (16 ≤ seed.length → seed.length ≤ 64 →
      (parse256 ((hmac_sha512 bitcoinSeed seed).take 32) = 0 ∨
          secpN ≤ parse256 ((hmac_sha512 bitcoinSeed seed).take 32) →
        from_seed seed = .error .invalidMasterKey) ∧
      (0 < parse256 ((hmac_sha512 bitcoinSeed seed).take 32) →
        parse256 ((hmac_sha512 bitcoinSeed seed).take 32) < secpN →
        from_seed seed =
          .ok ⟨(hmac_sha512 bitcoinSeed seed).take 32,
               (hmac_sha512 bitcoinSeed seed).drop 32, 0, [0, 0, 0, 0], 0, true⟩)) := by
  simp only [from_seed]
  split_ifs with hlen hil
  · exact ⟨fun _ => rfl, fun h1 h2 => absurd hlen (by omega)⟩
  · exact ⟨fun h => absurd h (by omega),
      fun h1 h2 => ⟨fun _ => rfl, fun h3 h4 => absurd hil (by omega)⟩⟩
  · exact ⟨fun h => absurd h (by omega),
      fun h1 h2 => ⟨fun h => absurd h (by omega), fun h3 h4 => rfl⟩⟩

/-- Witness for C4 at the BIP-32 test-vector seed
`000102030405060708090a0b0c0d0e0f` (the success branch fires and the
master key fields are exactly the HMAC halves). -/
theorem from_seed_spec_witness :
    16 ≤ (List.range 16).length ∧ (List.range 16).length ≤ 64 ∧
    0 < parse256 ((hmac_sha512 bitcoinSeed (List.range 16)).take 32) ∧
    parse256 ((hmac_sha512 bitcoinSeed (List.range 16)).take 32) < secpN ∧
    from_seed (List.range 16) =
      .ok ⟨(hmac_sha512 bitcoinSeed (List.range 16)).take 32,
           (hmac_sha512 bitcoinSeed (List.range 16)).drop 32, 0, [0, 0, 0, 0], 0, true⟩ :=
  ⟨by decide, by decide, by decide, by decide,
    ((from_seed_spec (List.range 16)).2 (by decide) (by decide)).2 (by decide) (by decide)⟩

/-! ## Claim C1 — public-parent normal derivation (code bug) -/

/-- C1 (refuting theorem): the spec requires public-parent non-hardened
derivation to return the compressed sum `scalarMultiply(IL, G) +
decompress(parentKey)`, but the code's public branch raises
`NotImplementedError` after the HMAC and the `IL < n` check, for every
public parent and every non-hardened index — no point arithmetic is ever
reached. -/
theorem derive_child_public_normal_not_implemented (parent : ExtendedKey) (index : Int)
    (hpub : parent.is_private = false) (h0 : 0 ≤ index) (hlt : index < 0x80000000)
    (hIL : parse256 ((hmac_sha512 parent.chain_code
        (parent.key ++ beDigits 256 4 index.toNat)).take 32) < secpN) :
    derive_child parent index = .error .notImplemented := by
  have hpk : parent.public_key = .ok parent.key := by
    unfold ExtendedKey.public_key
    rw [hpub]
    rfl
  have hs : ser32 index = .ok (beDigits 256 4 index.toNat) := by
    unfold ser32
    rw [if_pos (show (0 : Int) ≤ index ∧ index < 2 ^ 32 from ⟨h0, by omega⟩)]
  have hd : derive_data parent index = .ok (parent.key ++ beDigits 256 4 index.toNat) := by
    unfold derive_data
    rw [if_neg (show ¬ index ≥ 0x80000000 from by omega)]
    rw [hpk, ok_bind, hs, ok_bind]
    rfl
  simp only [derive_child, hd, ok_bind, hpub]
  rw [if_neg (not_le.mpr hIL)]
  rfl

/-- Witness for C1 at a concrete public-only parent and index 0: the
key-range hypothesis is discharged by evaluating the HMAC in the kernel. -/
theorem derive_child_public_normal_not_implemented_witness :
    (⟨0x02 :: List.replicate 32 7, List.replicate 32 1, 1, [1, 2, 3, 4], 0, false⟩ :
        ExtendedKey).is_private = false ∧
    (0 : Int) ≤ 0 ∧ (0 : Int) < 0x80000000 ∧
    parse256 ((hmac_sha512 (List.replicate 32 1)
        ((0x02 :: List.replicate 32 7) ++ beDigits 256 4 (0 : Int).toNat)).take 32) < secpN ∧
    derive_child ⟨0x02 :: List.replicate 32 7, List.replicate 32 1, 1, [1, 2, 3, 4], 0, false⟩
      0 = .error .notImplemented :=
  ⟨rfl, le_refl _, by decide, by decide,
    derive_child_public_normal_not_implemented _ 0 rfl (le_refl _) (by decide) (by decide)⟩

/-! ## Claims C5 and C10 — private-parent derivation -/

/-- Shared characterization of `derive_child` on a private parent, given
the HMAC payload and the parent fingerprint: the left HMAC half is
range-checked, the child scalar is the modular sum, a zero sum is
rejected, and the metadata is `depth + 1`, the parent fingerprint, the
index, and the right HMAC half as chain code. -/
theorem derive_child_private_eq (parent : ExtendedKey) (index : Int)
    (hpriv : parent.is_private = true) (data : List Nat)
    (hd : derive_data parent index = .ok data) (fp : List Nat)
    (hfp : parent.fingerprint = .ok fp) :
    derive_child parent index =
      if parse256 ((hmac_sha512 parent.chain_code data).take 32) ≥ secpN then
        .error .invalidChildKey
      else if (parse256 ((hmac_sha512 parent.chain_code data).take 32) +
          parse256 parent.key) % secpN = 0 then
        .error .invalidChildKey
      else
        .ok ⟨ser256 ((parse256 ((hmac_sha512 parent.chain_code data).take 32) +
                parse256 parent.key) % secpN),
             (hmac_sha512 parent.chain_code data).drop 32,
             parent.depth + 1, fp, index, true⟩ := by
  simp only [derive_child, hd, ok_bind, hpriv]
  split_ifs with h1 h2
  · rfl
  · rfl
  · rw [hfp, ok_bind]

/-- C5: for every private parent (with its public key computable, per the
data-model invariant) and every index whose HMAC left half satisfies
`IL < n` and `(IL + parentScalar) mod n ≠ 0`, `derive_child` returns the
private child with scalar `(IL + parentScalar) mod n`, `depth =
parent.depth + 1`, `parentFingerprint = fingerprint(parent)`,
`childIndex = index` and `chainCode = IR`; `IL ≥ n` or a zero child scalar
fails with `InvalidChildKey`. -/
theorem derive_child_private_spec (parent : ExtendedKey) (index : Int)
    (hpriv : parent.is_private = true) (data : List Nat)
    (hd : derive_data parent index = .ok data) (fp : List Nat)
    (hfp : parent.fingerprint = .ok fp) :
    derive_child parent index =
      if parse256 ((hmac_sha512 parent.chain_code data).take 32) ≥ secpN then
        .error .invalidChildKey
      else if (parse256 ((hmac_sha512 parent.chain_code data).take 32) +
          parse256 parent.key) % secpN = 0 then
        .error .invalidChildKey
      else
        .ok ⟨ser256 ((parse256 ((hmac_sha512 parent.chain_code data).take 32) +
                parse256 parent.key) % secpN),
             (hmac_sha512 parent.chain_code data).drop 32,
             parent.depth + 1, fp, index, true⟩ :=
  derive_child_private_eq parent index hpriv data hd fp hfp

/-- Witness for C5: the private key with scalar 1, chain code
`00..1f`, at the hardened index `2^31`; every hypothesis is discharged by
kernel evaluation. -/
theorem derive_child_private_spec_witness :
    (⟨ser256 1, List.range 32, 0, [0, 0, 0, 0], 0, true⟩ :
        ExtendedKey).is_private = true ∧
    derive_data ⟨ser256 1, List.range 32, 0, [0, 0, 0, 0], 0, true⟩ 0x80000000
      = .ok (0x00 :: ser256 1 ++ [128, 0, 0, 0]) ∧
    (⟨ser256 1, List.range 32, 0, [0, 0, 0, 0], 0, true⟩ :
        ExtendedKey).fingerprint = .ok [117, 30, 118, 232] ∧
    derive_child ⟨ser256 1, List.range 32, 0, [0, 0, 0, 0], 0, true⟩ 0x80000000 =
      if parse256 ((hmac_sha512 (List.range 32)
          (0x00 :: ser256 1 ++ [128, 0, 0, 0])).take 32) ≥ secpN then
        .error .invalidChildKey
      else if (parse256 ((hmac_sha512 (List.range 32)
          (0x00 :: ser256 1 ++ [128, 0, 0, 0])).take 32) +
          parse256 (ser256 1)) % secpN = 0 then
        .error .invalidChildKey
      else
        .ok ⟨ser256 ((parse256 ((hmac_sha512 (List.range 32)
                (0x00 :: ser256 1 ++ [128, 0, 0, 0])).take 32) +
                parse256 (ser256 1)) % secpN),
             (hmac_sha512 (List.range 32)
                (0x00 :: ser256 1 ++ [128, 0, 0, 0])).drop 32,
             0 + 1, [117, 30, 118, 232], 0x80000000, true⟩ :=
  ⟨rfl, by decide, by decide,
    derive_child_private_spec ⟨ser256 1, List.range 32, 0, [0, 0, 0, 0], 0, true⟩
      0x80000000 rfl (0x00 :: ser256 1 ++ [128, 0, 0, 0]) (by decide)
      [117, 30, 118, 232] (by decide)⟩

/-- C10: a parent at depth 255 still derives — the child carries depth
256, outside the one-byte range — and serializing that child fails
(`bytes([256])` raises); the depth bound is enforced only at
serialization time. -/
theorem derive_child_depth_unbounded (parent : ExtendedKey) (index : Int)
    (hpriv : parent.is_private = true) (hdepth : parent.depth = 255)
    (data : List Nat) (hd : derive_data parent index = .ok data)
    (fp : List Nat) (hfp : parent.fingerprint = .ok fp)
    (hIL : parse256 ((hmac_sha512 parent.chain_code data).take 32) < secpN)
    (hnz : (parse256 ((hmac_sha512 parent.chain_code data).take 32) +
        parse256 parent.key) % secpN ≠ 0) :
    ∃ c, derive_child parent index = .ok c ∧ c.depth = 256 ∧
      c.serialize = .error .byteValueError := by
  refine ⟨⟨ser256 ((parse256 ((hmac_sha512 parent.chain_code data).take 32) +
          parse256 parent.key) % secpN),
        (hmac_sha512 parent.chain_code data).drop 32,
        parent.depth + 1, fp, index, true⟩, ?_, ?_, ?_⟩
  · rw [derive_child_private_eq parent index hpriv data hd fp hfp,
       if_neg (not_le.mpr hIL), if_neg hnz]
  · show parent.depth + 1 = 256
    omega
  · show ExtendedKey.serialize _ = _
    rw [hdepth]
    rfl

/-- Witness for C10: the C5 witness key lifted to depth 255; the derived
child exists, has depth 256, and refuses to serialize. -/
theorem derive_child_depth_unbounded_witness :
    (⟨ser256 1, List.range 32, 255, [0, 0, 0, 0], 0, true⟩ :
        ExtendedKey).is_private = true ∧
    (⟨ser256 1, List.range 32, 255, [0, 0, 0, 0], 0, true⟩ :
        ExtendedKey).depth = 255 ∧
    derive_data ⟨ser256 1, List.range 32, 255, [0, 0, 0, 0], 0, true⟩ 0x80000000
      = .ok (0x00 :: ser256 1 ++ [128, 0, 0, 0]) ∧
    (⟨ser256 1, List.range 32, 255, [0, 0, 0, 0], 0, true⟩ :
        ExtendedKey).fingerprint = .ok [117, 30, 118, 232] ∧
    parse256 ((hmac_sha512 (List.range 32)
        (0x00 :: ser256 1 ++ [128, 0, 0, 0])).take 32) < secpN ∧
    (parse256 ((hmac_sha512 (List.range 32)
        (0x00 :: ser256 1 ++ [128, 0, 0, 0])).take 32) +
        parse256 (ser256 1)) % secpN ≠ 0 ∧
    (∃ c, derive_child ⟨ser256 1, List.range 32, 255, [0, 0, 0, 0], 0, true⟩
        0x80000000 = .ok c ∧ c.depth = 256 ∧
        c.serialize = .error .byteValueError) :=
  ⟨rfl, rfl, by decide, by decide, by decide, by decide,
    derive_child_depth_unbounded ⟨ser256 1, List.range 32, 255, [0, 0, 0, 0], 0, true⟩
      0x80000000 rfl rfl (0x00 :: ser256 1 ++ [128, 0, 0, 0]) (by decide)
      [117, 30, 118, 232] (by decide) (by decide) (by decide)⟩

/-! ## Claim C8 — neuter -/

/-- C8: neuter is idempotent (`neuter ∘ neuter = neuter`, as a Kleisli
composition since `public_key` is fallible on degenerate scalars), is the
identity on an already-public key, and produces a public-only key keeping
`chainCode`, `depth`, `parentFingerprint` and `childIndex` while replacing
the key material with the compressed public key. The original is never
mutated — automatic here, since the embedding is pure and `neuter` builds
a fresh record. -/
theorem neuter_spec (k : ExtendedKey) :
    (k.neuter.bind ExtendedKey.neuter = k.neuter) ∧
    (k.is_private = false → k.neuter = .ok k) ∧
    (∀ k2, k.neuter = .ok k2 →
      k2.is_private = false ∧ k2.chain_code = k.chain_code ∧ k2.depth = k.depth ∧
      k2.parent_fingerprint = k.parent_fingerprint ∧
      k2.child_index = k.child_index ∧ k.public_key = .ok k2.key) := by
  cases hb : k.is_private with
  | false =>
    have hn : k.neuter = .ok k := by
      unfold ExtendedKey.neuter; rw [hb]; rfl
    refine ⟨by rw [hn]; exact hn, fun _ => hn, fun k2 h2 => ?_⟩
    rw [hn] at h2
    cases Except.ok.inj h2
    exact ⟨hb, rfl, rfl, rfl, rfl, by unfold ExtendedKey.public_key; rw [hb]; rfl⟩
  | true =>
    rcases hpk : k.public_key with e | pub
    · have hn : k.neuter = .error e := by
        unfold ExtendedKey.neuter; rw [hb, hpk]; rfl
      exact ⟨by rw [hn]; rfl,
        fun hcontra => Bool.noConfusion hcontra,
        fun k2 h2 => by rw [hn] at h2; exact Except.noConfusion h2⟩
    · have hn : k.neuter =
          .ok ⟨pub, k.chain_code, k.depth, k.parent_fingerprint, k.child_index, false⟩ := by
        unfold ExtendedKey.neuter; rw [hb, hpk]; rfl
      refine ⟨by rw [hn]; rfl,
        fun hcontra => Bool.noConfusion hcontra,
        fun k2 h2 => ?_⟩
      rw [hn] at h2
      cases Except.ok.inj h2
      exact ⟨rfl, rfl, rfl, rfl, rfl, rfl⟩

/-- Witness for C8 at a concrete public-only key: both hypothesis-guarded
parts fire. -/
theorem neuter_spec_witness :
    ((⟨0x02 :: List.replicate 32 9, List.replicate 32 2, 3, [9, 9, 9, 9], 4, false⟩ :
        ExtendedKey).neuter.bind ExtendedKey.neuter =
      (⟨0x02 :: List.replicate 32 9, List.replicate 32 2, 3, [9, 9, 9, 9], 4, false⟩ :
        ExtendedKey).neuter) ∧
    ((⟨0x02 :: List.replicate 32 9, List.replicate 32 2, 3, [9, 9, 9, 9], 4, false⟩ :
        ExtendedKey).neuter =
      .ok ⟨0x02 :: List.replicate 32 9, List.replicate 32 2, 3, [9, 9, 9, 9], 4, false⟩) ∧
    ((⟨0x02 :: List.replicate 32 9, List.replicate 32 2, 3, [9, 9, 9, 9], 4, false⟩ :
        ExtendedKey).is_private = false ∧
      (⟨0x02 :: List.replicate 32 9, List.replicate 32 2, 3, [9, 9, 9, 9], 4, false⟩ :
        ExtendedKey).chain_code = List.replicate 32 2 ∧
      (⟨0x02 :: List.replicate 32 9, List.replicate 32 2, 3, [9, 9, 9, 9], 4, false⟩ :
        ExtendedKey).depth = 3 ∧
      (⟨0x02 :: List.replicate 32 9, List.replicate 32 2, 3, [9, 9, 9, 9], 4, false⟩ :
        ExtendedKey).parent_fingerprint = [9, 9, 9, 9] ∧
      (⟨0x02 :: List.replicate 32 9, List.replicate 32 2, 3, [9, 9, 9, 9], 4, false⟩ :
        ExtendedKey).child_index = 4 ∧
      (⟨0x02 :: List.replicate 32 9, List.replicate 32 2, 3, [9, 9, 9, 9], 4, false⟩ :
        ExtendedKey).public_key = .ok (0x02 :: List.replicate 32 9)) :=
  ⟨(neuter_spec _).1,
   (neuter_spec _).2.1 rfl,
   (neuter_spec _).2.2 _ ((neuter_spec _).2.1 rfl)⟩

/-! ## Claim C2 — Base58Check round trip -/

theorem round256_length (st : List Nat) (kw : Nat × Nat) :
    (round256 st kw).length = st.length := by
  unfold round256
  split <;> rfl

theorem foldl_round256_length (l : List (Nat × Nat)) (st : List Nat) :
    (l.foldl round256 st).length = st.length := by
  induction l generalizing st with
  | nil => rfl
  | cons p t ih => rw [List.foldl_cons, ih, round256_length]

theorem compress256_length (st block : List Nat) :
    (compress256 st block).length = st.length := by
  unfold compress256
  rw [List.length_map, List.length_zip, foldl_round256_length, Nat.min_self]

theorem foldl_compress256_length (l : List (List Nat)) (st : List Nat) :
    (l.foldl compress256 st).length = st.length := by
  induction l generalizing st with
  | nil => rfl
  | cons b t ih => rw [List.foldl_cons, ih, compress256_length]

theorem flatMap_beDigits_length (l : List Nat) (L : Nat) :
    (l.flatMap (beDigits 256 L)).length = L * l.length := by
  induction l with
  | nil => simp
  | cons x t ih =>
    rw [List.flatMap_cons, List.length_append, beDigits_length, ih,
        List.length_cons]
    ring

/-- The digest really is 32 bytes. -/
theorem sha256_length (msg : List Nat) : (sha256 msg).length = 32 := by
  unfold sha256
  rw [flatMap_beDigits_length, foldl_compress256_length]
  rfl

/-- Every digest entry is a byte. -/
theorem sha256_lt (msg : List Nat) : ∀ b ∈ sha256 msg, b < 256 := by
  unfold sha256
  intro b hb
  obtain ⟨x, _, hbx⟩ := List.mem_flatMap.mp hb
  exact mem_beDigits_lt 256 4 x (by omega) b hbx

theorem b58checksum_length (payload : List Nat) :
    (b58checksum payload).length = 4 := by
  unfold b58checksum
  rw [List.length_take, sha256_length]
  decide

theorem b58checksum_lt (payload : List Nat) : ∀ b ∈ b58checksum payload, b < 256 :=
  fun b hb => sha256_lt _ b (List.mem_of_mem_take hb)

/-- First 58 alphabet positions invert the alphabet lookup. -/
theorem alphabet_inverts : ∀ d < 58, pyIndex ALPHABET (ALPHABET.getD d '1') = .ok d := by
  decide

/-- Only position 0 of the alphabet is the character one. -/
theorem alphabet_ne_one : ∀ d < 58, d ≠ 0 → ¬ ALPHABET.getD d '1' = '1' := by
  decide

theorem b58fold_map (ds : List Nat) (hds : ∀ d ∈ ds, d < 58) (a : Nat) :
    b58fold (ds.map (fun d => ALPHABET.getD d '1')) a
      = .ok (ds.foldl (fun acc d => 58 * acc + d) a) := by
  induction ds generalizing a with
  | nil => rfl
  | cons d t ih =>
    have hd : d < 58 := hds d (by simp)
    show (pyIndex ALPHABET (ALPHABET.getD d '1')) >>= _ = _
    rw [alphabet_inverts d hd, ok_bind, ih (fun x hx => hds x (by simp [hx]))]
    congr 1
    rw [List.foldl_cons, Nat.mul_comm]

theorem b58fold_ones (z : Nat) (rest : List Char) :
    b58fold (List.replicate z '1' ++ rest) 0 = b58fold rest 0 := by
  induction z with
  | zero => rfl
  | succ z ih =>
    show (pyIndex ALPHABET '1') >>= _ = _
    rw [show pyIndex ALPHABET '1' = .ok 0 from rfl, ok_bind]
    simpa using ih

theorem takeWhile_ones (z : Nat) (rest : List Char)
    (hr : rest.takeWhile (· == '1') = []) :
    (List.replicate z '1' ++ rest).takeWhile (· == '1') = List.replicate z '1' := by
  induction z with
  | zero => simpa using hr
  | succ z ih =>
    rw [List.replicate_succ, List.cons_append, List.takeWhile_cons_of_pos (by rfl),
        ih]

theorem beVal_replicate_zero (B z : Nat) : beVal B (List.replicate z 0) = 0 := by
  induction z with
  | zero => rfl
  | succ z ih => rw [List.replicate_succ, beVal_cons, ih]; ring

theorem head_dropWhile_not (p : Nat → Bool) (l : List Nat) :
    ∀ c t, l.dropWhile p = c :: t → p c = false := by
  induction l with
  | nil => intro c t h; cases h
  | cons a l ih =>
    intro c t h
    rw [List.dropWhile_cons] at h
    by_cases hp : p a = true
    · exact ih c t (by rwa [if_pos hp] at h)
    · rw [if_neg hp] at h
      injection h with h1 _
      subst h1
      exact Bool.not_eq_true _ |>.mp hp

/-- Round trip between bytes and Base58 text: decoding an encoded byte
string returns it exactly (leading zeros, value, and minimality of the
byte dump all line up). -/
theorem base58_decode_encode (data : List Nat) (hb : ∀ b ∈ data, b < 256) :
    base58_decode (base58_encode data) = .ok data := by
  set z := (data.takeWhile (· == 0)).length with hz
  set rest := data.dropWhile (· == 0) with hrest
  have hsplit : data = List.replicate z 0 ++ rest := by
    conv_lhs => rw [← List.takeWhile_append_dropWhile (p := (· == 0)) (l := data)]
    congr 1
    have : ∀ x ∈ data.takeWhile (· == 0), x = 0 := by
      intro x hx
      have := List.takeWhile_subset (p := (· == 0)) hx
      simpa using List.mem_takeWhile_imp hx
    exact List.eq_replicate_of_mem this
  have hrb : ∀ b ∈ rest, b < 256 := fun b hbm =>
    hb b (hsplit ▸ List.mem_append.mpr (Or.inr hbm))
  have hnum : beVal 256 data = beVal 256 rest := by
    rw [hsplit, beVal_append, beVal_replicate_zero]
    ring
  have hhead : ∀ c t, rest = c :: t → c ≠ 0 := by
    intro c t hct
    have := head_dropWhile_not (· == 0) data c t (hrest ▸ hct)
    simpa using this
  -- the encoded string
  have henc : base58_encode data = List.replicate z '1'
      ++ (minDigits 58 (beVal 256 rest)).map (fun d => ALPHABET.getD d '1') := by
    unfold base58_encode
    rw [← hz, hnum]
  rcases Nat.eq_zero_or_pos (beVal 256 rest) with h0 | hpos
  · -- zero value: everything is leading zeros
    have hrest_nil : rest = [] := by
      rcases hre : rest with _ | ⟨c, t⟩
      · rfl
      · exfalso
        have hc := hhead c t hre
        have hv := beVal_cons 256 c t
        rw [hre] at h0
        have hge : 256 ^ t.length ≤ c * 256 ^ t.length := by
          conv_lhs => rw [← Nat.one_mul (256 ^ t.length)]
          exact Nat.mul_le_mul_right _ (by omega)
        have hxpos : 0 < 256 ^ t.length := pow_pos (by omega) _
        omega
    rw [henc, h0]
    unfold base58_decode
    rw [show minDigits 58 0 = [] from rfl]
    rw [takeWhile_ones z (List.map (fun d => ALPHABET.getD d '1') []) rfl,
        b58fold_ones z (List.map (fun d => ALPHABET.getD d '1') [])]
    rw [show b58fold (List.map (fun d => ALPHABET.getD d '1') []) 0 = .ok 0 from rfl]
    simp only [ok_bind, List.length_replicate]
    rw [if_neg (by omega)]
    rw [hsplit, hrest_nil, List.append_nil]
    rfl
  · -- positive value
    have hds : ∀ d ∈ minDigits 58 (beVal 256 rest), d < 58 :=
      mem_minDigits_lt 58 _ (by omega)
    obtain ⟨d0, ds0, hmd⟩ : ∃ d0 ds0, minDigits 58 (beVal 256 rest) = d0 :: ds0 := by
      rcases hmm : minDigits 58 (beVal 256 rest) with _ | ⟨d0, ds0⟩
      · exact absurd hmm (minDigits_ne_nil 58 _ (by omega) hpos)
      · exact ⟨d0, ds0, rfl⟩
    have hd0 : d0 ≠ 0 := minDigits_head_ne_zero 58 _ (by omega) hpos d0 ds0 hmd
    have hd0lt : d0 < 58 := hds d0 (hmd ▸ List.mem_cons_self _ _)
    rw [henc]
    unfold base58_decode
    rw [takeWhile_ones z _ (by
      rw [hmd, List.map_cons, List.takeWhile_cons_of_neg]
      simp only [beq_iff_eq]
      exact alphabet_ne_one d0 hd0lt hd0)]
    rw [b58fold_ones, b58fold_map _ hds 0]
    have hval : (minDigits 58 (beVal 256 rest)).foldl (fun acc d => 58 * acc + d) 0
        = beVal 256 rest := beVal_minDigits 58 (by omega) _
    rw [hval]
    simp only [ok_bind, List.length_replicate]
    rw [if_pos hpos]
    -- the byte dump: minimal length and digits
    have hrest_ne : ∃ c t, rest = c :: t := by
      rcases hre : rest with _ | ⟨c, t⟩
      · rw [hre] at hpos; simp [beVal] at hpos
      · exact ⟨c, t, rfl⟩
    obtain ⟨c, t, hct⟩ := hrest_ne
    have hcne : c ≠ 0 := hhead c t hct
    obtain ⟨hsz, hslo, hsup⟩ := bitLength_bounds (beVal 256 rest) hpos
    set s := bitLength (beVal 256 rest) with hs
    set L := (s + 7) / 8 with hL
    have hLpos : 0 < L := by rw [hL]; omega
    have hup : beVal 256 rest < 256 ^ L := by
      have h8 : s ≤ 8 * L := by rw [hL]; omega
      calc beVal 256 rest < 2 ^ s := hsup
        _ ≤ 2 ^ (8 * L) := Nat.pow_le_pow_right (by omega) h8
        _ = 256 ^ L := by rw [show (256 : Nat) = 2 ^ 8 from rfl, ← Nat.pow_mul]
    have hlo : 256 ^ (L - 1) ≤ beVal 256 rest := by
      have h8 : 8 * (L - 1) ≤ s - 1 := by rw [hL]; omega
      calc (256 : Nat) ^ (L - 1) = 2 ^ (8 * (L - 1)) := by
            rw [show (256 : Nat) = 2 ^ 8 from rfl, ← Nat.pow_mul]
        _ ≤ 2 ^ (s - 1) := Nat.pow_le_pow_right (by omega) h8
        _ ≤ beVal 256 rest := hslo
    have hmin : minDigits 256 (beVal 256 rest) = beDigits 256 L (beVal 256 rest) := by
      have := minDigits_of_bounds 256 (by omega) (L - 1) (beVal 256 rest) hlo
        (by rw [show L - 1 + 1 = L from by omega]; exact hup)
      rwa [show L - 1 + 1 = L from by omega] at this
    have huniq : minDigits 256 (beVal 256 rest) = rest :=
      minDigits_beVal 256 (by omega) rest hrb c t hct hcne
    rw [← hmin, huniq, hsplit]
    rfl

/-- C2 (counterexample): with the empty version string and payload `[65]`,
`base58CheckDecode(base58CheckEncode(v, p))` returns `([65], [])`, not
`([], [65])` — the decoder always takes the version to be the single
first byte. -/
theorem base58check_roundtrip_counterexample :
    base58check_decode (base58check_encode [] [65]) = .ok ([65], []) ∧
    base58check_decode (base58check_encode [] [65]) ≠ .ok ([], [65]) := by
  constructor
  · decide
  · decide

/-- C2 (amended): for every one-byte version `v` and every payload `p`
(all entries bytes), `base58CheckDecode(base58CheckEncode(v, p))` returns
exactly `(v, p)`. -/
theorem base58check_roundtrip_one_byte_version (v p : List Nat)
    (hv : v.length = 1) (hvb : ∀ b ∈ v, b < 256) (hpb : ∀ b ∈ p, b < 256) :
    base58check_decode (base58check_encode v p) = .ok (v, p) := by
  have hdata : ∀ b ∈ (v ++ p) ++ b58checksum (v ++ p), b < 256 := by
    intro b hbm
    rcases List.mem_append.mp hbm with h | h
    · rcases List.mem_append.mp h with h' | h'
      · exact hvb b h'
      · exact hpb b h'
    · exact b58checksum_lt _ b h
  unfold base58check_decode base58check_encode
  rw [base58_decode_encode _ hdata, ok_bind]
  have hlen : ((v ++ p) ++ b58checksum (v ++ p)).length = (v ++ p).length + 4 := by
    rw [List.length_append, b58checksum_length]
  have htake : ((v ++ p) ++ b58checksum (v ++ p)).take
      (((v ++ p) ++ b58checksum (v ++ p)).length - 4) = v ++ p := by
    rw [hlen, Nat.add_sub_cancel, List.take_left]
  have hdrop : ((v ++ p) ++ b58checksum (v ++ p)).drop
      (((v ++ p) ++ b58checksum (v ++ p)).length - 4) = b58checksum (v ++ p) := by
    rw [hlen, Nat.add_sub_cancel, List.drop_left]
  rw [htake, hdrop, if_neg (by simp)]
  have hv1 : ∃ b, v = [b] := by
    rcases v with _ | ⟨b, _ | _⟩ <;> simp_all
  obtain ⟨b, hb⟩ := hv1
  subst hb
  rfl

/-- Witness for C2 (amended) at version `[4]`, payload `[1, 200]`. -/
theorem base58check_roundtrip_one_byte_version_witness :
    ([4] : List Nat).length = 1 ∧ (∀ b ∈ ([4] : List Nat), b < 256) ∧
    (∀ b ∈ ([1, 200] : List Nat), b < 256) ∧
    base58check_decode (base58check_encode [4] [1, 200]) = .ok ([4], [1, 200]) :=
  ⟨rfl, by decide, by decide,
    base58check_roundtrip_one_byte_version [4] [1, 200] rfl (by decide) (by decide)⟩

/-! ## Claim C3 — malformed-path handling in `derive_path` -/

theorem splitOnChar_not_mem (sep : Char) (l : List Char) (h : ¬ sep ∈ l) :
    splitOnChar sep l = [l] := by
  induction l with
  | nil => rfl
  | cons c rest ih =>
    have hc : ¬ c = sep := fun hcontra => h (hcontra ▸ List.mem_cons_self _ _)
    have hr : ¬ sep ∈ rest := fun hcontra => h (List.mem_cons_of_mem _ hcontra)
    unfold splitOnChar
    rw [ih hr]
    show (if c = sep then [] :: rest :: [] else (c :: rest) :: []) = [c :: rest]
    rw [if_neg hc]

/-- C3 (counterexample): the path `"mabc"` does not conform to the
grammar, yet `derive_path` returns the master unchanged instead of failing
with `InvalidPath` — only the first character is checked, and a path
without a slash contributes no segments. -/
theorem derive_path_malformed_counterexample :
    specPathOk "mabc".data = false ∧
    derive_path ⟨[1], [2], 0, [0, 0, 0, 0], 0, true⟩ "mabc".data =
      .ok ⟨[1], [2], 0, [0, 0, 0, 0], 0, true⟩ := by
  constructor
  · decide
  · decide

/-- C3 (amended): a path that does not start with `m` fails with
`InvalidPath` before any `deriveChild` call; but a nonconforming path is
not otherwise rejected up front — segments are parsed lazily while
deriving — and in particular any slash-free path whose first character is
`m` (such as `"mabc"`) returns the master unchanged. -/
theorem derive_path_malformed_guard (master : ExtendedKey) (path : List Char) :
    (¬ path.take 1 = ['m'] → derive_path master path = .error .invalidPath) ∧
    (path.take 1 = ['m'] → ¬ '/' ∈ path → derive_path master path = .ok master) := by
  constructor
  · intro h
    unfold derive_path
    rw [if_pos h]
  · intro h1 h2
    unfold derive_path
    rw [if_neg (not_not_intro h1)]
    by_cases hm : path = ['m']
    · rw [if_pos hm]
    · rw [if_neg hm, splitOnChar_not_mem '/' path h2]
      rfl

/-- Witness for C3 (amended), applying the theorem at the concrete paths
`"x/0"` (rejected before any derivation) and `"mzz"` (accepted, master
returned). -/
theorem derive_path_malformed_guard_witness :
    (¬ ("x/0".data.take 1 = ['m']) ∧
      derive_path ⟨[1], [2], 0, [0, 0, 0, 0], 0, true⟩ "x/0".data =
        .error .invalidPath) ∧
    ("mzz".data.take 1 = ['m'] ∧ ¬ '/' ∈ "mzz".data ∧
      derive_path ⟨[1], [2], 0, [0, 0, 0, 0], 0, true⟩ "mzz".data =
        .ok ⟨[1], [2], 0, [0, 0, 0, 0], 0, true⟩) :=
  ⟨⟨by decide, (derive_path_malformed_guard _ _).1 (by decide)⟩,
   ⟨by decide, by decide,
     (derive_path_malformed_guard _ _).2 (by decide) (by decide)⟩⟩

/-! ## Claim C9 — mnemonic round trip: supporting lemmas -/

theorem beDigits_lt_of_mem {B L n d : Nat} (hB : 0 < B)
    (hd : d ∈ beDigits B L n) : d < B :=
  mem_beDigits_lt B L n hB d hd

/-- Left-padding the minimal binary expansion to a width that fits the
value gives exactly the fixed-width expansion. -/
theorem zfill_pyBin (k n : Nat) (hk : 0 < k) (hn : n < 2 ^ k) :
    zfill k (pyBin n) = beDigits 2 k n := by
  have hlen : (pyBin n).length ≤ k := by
    unfold pyBin
    split_ifs with h0
    · simpa using hk
    · obtain ⟨hpos, hlo, hup⟩ := bitLength_bounds n (by omega)
      show bitLength n ≤ k
      by_contra hcon
      have : 2 ^ k ≤ 2 ^ (bitLength n - 1) :=
        Nat.pow_le_pow_right (by omega) (by omega)
      omega
  have hdig : ∀ d ∈ pyBin n, d < 2 := by
    unfold pyBin
    split_ifs with h0
    · intro d hd; simp only [List.mem_singleton] at hd; omega
    · exact mem_minDigits_lt 2 n (le_refl 2)
  have hval : beVal 2 (pyBin n) = n := by
    unfold pyBin
    split_ifs with h0
    · simp [beVal, h0]
    · exact beVal_minDigits 2 (le_refl 2) n
  have hzlen : (zfill k (pyBin n)).length = k := by
    unfold zfill
    rw [List.length_append, List.length_replicate]
    omega
  have hzval : beVal 2 (zfill k (pyBin n)) = n := by
    unfold zfill
    rw [beVal_append, beVal_replicate_zero, hval]
    ring
  have hzdig : ∀ d ∈ zfill k (pyBin n), d < 2 := by
    intro d hd
    unfold zfill at hd
    rcases List.mem_append.mp hd with h | h
    · have := List.eq_of_mem_replicate h; omega
    · exact hdig d h
  have := beDigits_beVal 2 (zfill k (pyBin n)) (by omega) hzdig
  rw [hzlen, hzval] at this
  exact this.symm

theorem chunksAux_flatten (k : Nat) (hk : 0 < k) :
    ∀ f (l : List α), l.length ≤ f → (chunksAux k f l).flatten = l := by
  intro f
  induction f with
  | zero =>
    intro l hl
    have : l = [] := List.length_eq_zero.mp (by omega)
    simp [this, chunksAux]
  | succ f ih =>
    intro l hl
    unfold chunksAux
    by_cases he : l.isEmpty
    · rw [if_pos he]
      rw [List.isEmpty_iff.mp he]
      rfl
    · rw [if_neg he]
      have hne : l ≠ [] := fun hc => he (by simp [hc])
      have hlen : (l.drop k).length ≤ f := by
        rw [List.length_drop]
        have : 0 < l.length := List.length_pos.mpr hne
        omega
      rw [List.flatten_cons, ih (l.drop k) hlen, List.take_append_drop]

theorem chunks_flatten (k : Nat) (hk : 0 < k) (l : List α) :
    (chunks k l).flatten = l :=
  chunksAux_flatten k hk l.length l (le_refl _)

theorem chunksAux_mem_length (k : Nat) (hk : 0 < k) :
    ∀ f (l : List α), l.length ≤ f → k ∣ l.length →
      ∀ c ∈ chunksAux k f l, c.length = k := by
  intro f
  induction f with
  | zero =>
    intro l hl _ c hc
    have : l = [] := List.length_eq_zero.mp (by omega)
    subst this
    simp [chunksAux] at hc
  | succ f ih =>
    intro l hl hdvd c hc
    unfold chunksAux at hc
    by_cases he : l.isEmpty
    · rw [if_pos he] at hc; simp at hc
    · rw [if_neg he] at hc
      have hne : l ≠ [] := fun hcon => he (by simp [hcon])
      have hpos : 0 < l.length := List.length_pos.mpr hne
      have hkle : k ≤ l.length := Nat.le_of_dvd hpos hdvd
      rcases List.mem_cons.mp hc with h | h
      · rw [h, List.length_take]
        omega
      · refine ih (l.drop k) ?_ ?_ c h
        · rw [List.length_drop]; omega
        · rw [List.length_drop]
          exact (Nat.dvd_sub' hdvd (dvd_refl k))

theorem chunks_mem_length (k : Nat) (hk : 0 < k) (l : List α)
    (hdvd : k ∣ l.length) : ∀ c ∈ chunks k l, c.length = k :=
  chunksAux_mem_length k hk l.length l (le_refl _) hdvd

theorem chunksAux_count (k : Nat) (hk : 0 < k) :
    ∀ f (l : List α), l.length ≤ f → k ∣ l.length →
      (chunksAux k f l).length = l.length / k := by
  intro f
  induction f with
  | zero =>
    intro l hl _
    have : l = [] := List.length_eq_zero.mp (by omega)
    subst this
    simp [chunksAux]
  | succ f ih =>
    intro l hl hdvd
    unfold chunksAux
    by_cases he : l.isEmpty
    · rw [if_pos he, List.isEmpty_iff.mp he]
      simp
    · rw [if_neg he]
      have hne : l ≠ [] := fun hcon => he (by simp [hcon])
      have hpos : 0 < l.length := List.length_pos.mpr hne
      have hkle : k ≤ l.length := Nat.le_of_dvd hpos hdvd
      have hdl : (l.drop k).length = l.length - k := List.length_drop _ _
      rw [List.length_cons, ih (l.drop k) (by omega)
          (hdl ▸ Nat.dvd_sub' hdvd (dvd_refl k)), hdl]
      obtain ⟨m, hm⟩ := hdvd
      have hm1 : 1 ≤ m := by
        rcases Nat.eq_zero_or_pos m with h0 | h1
        · rw [h0, Nat.mul_zero] at hm; omega
        · exact h1
      rw [hm, Nat.mul_comm,
          show m * k - k = (m - 1) * k from by rw [Nat.sub_mul, Nat.one_mul],
          Nat.mul_div_cancel _ hk, Nat.mul_div_cancel _ hk]
      omega

theorem chunks_count (k : Nat) (hk : 0 < k) (l : List α) (hdvd : k ∣ l.length) :
    (chunks k l).length = l.length / k :=
  chunksAux_count k hk l.length l (le_refl _) hdvd

theorem chunksAux_mem_subset (k : Nat) :
    ∀ f (l : List α), ∀ c ∈ chunksAux k f l, ∀ x ∈ c, x ∈ l := by
  intro f
  induction f with
  | zero => intro l c hc; simp [chunksAux] at hc
  | succ f ih =>
    intro l c hc x hx
    unfold chunksAux at hc
    by_cases he : l.isEmpty
    · rw [if_pos he] at hc; simp at hc
    · rw [if_neg he] at hc
      rcases List.mem_cons.mp hc with h | h
      · exact List.take_subset k l (h ▸ hx)
      · exact List.drop_subset k l (ih (l.drop k) c h x hx)

theorem chunks_mem_subset (k : Nat) (l : List α) :
    ∀ c ∈ chunks k l, ∀ x ∈ c, x ∈ l :=
  chunksAux_mem_subset k l.length l

theorem mapExcept_ok {α β : Type} (f : α → Except Err β) (g : α → β) (l : List α)
    (h : ∀ x ∈ l, f x = .ok (g x)) : mapExcept f l = .ok (l.map g) := by
  induction l with
  | nil => rfl
  | cons x xs ih =>
    show f x >>= _ = _
    rw [h x (by simp), ok_bind, ih (fun y hy => h y (by simp [hy]))]
    rfl

theorem mapOption_some {α β : Type} (f : α → Option β) (g : α → β) (l : List α)
    (h : ∀ x ∈ l, f x = some (g x)) : mapOption f l = some (l.map g) := by
  induction l with
  | nil => rfl
  | cons x xs ih =>
    show (f x).bind _ = _
    rw [h x (by simp), Option.some_bind, ih (fun y hy => h y (by simp [hy]))]
    rfl

theorem findIdx_of_nodup (wl : List (List Char)) (hnd : wl.Nodup) (i : Nat)
    (w : List Char) (hw : wl.get? i = some w) :
    wl.findIdx? (· == w) = some i := by
  induction wl generalizing i with
  | nil => cases hw
  | cons a t ih =>
    rcases i with _ | i
    · rw [List.get?_cons_zero] at hw
      injection hw with hw
      subst hw
      rw [List.findIdx?_cons, if_pos (by simp)]
    · rw [List.get?_cons_succ] at hw
      have hmem : w ∈ t := List.get?_mem hw
      have hane : ¬ a = w := fun hcon =>
        (List.nodup_cons.mp hnd).1 (hcon ▸ hmem)
      rw [List.findIdx?_cons, if_neg (by simp [hane]), List.findIdx?_succ,
          ih (List.nodup_cons.mp hnd).2 i hw]
      rfl

theorem splitWsAux_word (w : List Char) (hw : ∀ c ∈ w, pyIsSpace c = false) :
    ∀ (s acc : List Char), splitWsAux (w ++ s) acc = splitWsAux s (acc ++ w) := by
  induction w with
  | nil => intro s acc; rw [List.nil_append, List.append_nil]
  | cons c w ih =>
    intro s acc
    have hc : pyIsSpace c = false := hw c (by simp)
    have hstep : splitWsAux (c :: (w ++ s)) acc
        = if pyIsSpace c = true
          then (if acc.isEmpty = true then splitWsAux (w ++ s) []
                else acc :: splitWsAux (w ++ s) [])
          else splitWsAux (w ++ s) (acc ++ [c]) := rfl
    rw [List.cons_append, hstep, hc, if_neg (by simp),
        ih (fun x hx => hw x (by simp [hx])) s (acc ++ [c]), List.append_assoc]
    rfl

theorem splitWsAux_space (c : Char) (hc : pyIsSpace c = true) (s acc : List Char)
    (hacc : ¬ acc.isEmpty = true) :
    splitWsAux (c :: s) acc = acc :: splitWsAux s [] := by
  have hstep : splitWsAux (c :: s) acc
      = if pyIsSpace c = true
        then (if acc.isEmpty = true then splitWsAux s [] else acc :: splitWsAux s [])
        else splitWsAux s (acc ++ [c]) := rfl
  rw [hstep, hc, if_pos rfl, if_neg hacc]

theorem splitWs_joinWords (ws : List (List Char))
    (h : ∀ w ∈ ws, w ≠ [] ∧ ∀ c ∈ w, pyIsSpace c = false) :
    splitWs (joinWords ws) = ws := by
  induction ws with
  | nil => rfl
  | cons w ws ih =>
    obtain ⟨hne, hnsp⟩ := h w (by simp)
    rcases ws with _ | ⟨w2, ws2⟩
    · show splitWs w = [w]
      unfold splitWs
      have := splitWsAux_word w hnsp [] []
      rw [List.append_nil, List.nil_append] at this
      rw [this]
      unfold splitWsAux
      rw [if_neg (by simpa using hne)]
    · show splitWs (w ++ ' ' :: joinWords (w2 :: ws2)) = _
      unfold splitWs
      rw [splitWsAux_word w hnsp _ [], List.nil_append,
          splitWsAux_space ' ' rfl _ w (by simpa using hne)]
      exact congrArg (w :: ·) (ih (fun x hx => h x (by simp [hx])))

theorem mapOption_some_map {α β γ : Type} (f : β → Option γ) (h : α → β)
    (g : α → γ) (l : List α) (hx : ∀ x ∈ l, f (h x) = some (g x)) :
    mapOption f (l.map h) = some (l.map g) := by
  induction l with
  | nil => rfl
  | cons x xs ih =>
    show (f (h x)).bind _ = _
    rw [hx x (by simp), Option.some_bind, ih (fun y hy => hx y (by simp [hy]))]
    rfl

/-! ## Claim C9 — the round-trip theorem -/

/-- C9: for a wordlist of 2048 pairwise-distinct words (words being
nonempty and whitespace-free, as joining and re-splitting presupposes) and
every entropy of a valid length, the generated mnemonic validates. -/
theorem mnemonic_roundtrip (wl : List (List Char)) (entropy : List Nat)
    (hwl : wl.length = 2048) (hnd : wl.Nodup)
    (hwords : ∀ w ∈ wl, w ≠ [] ∧ ∀ c ∈ w, pyIsSpace c = false)
    (hE : entropy.length = 16 ∨ entropy.length = 20 ∨ entropy.length = 24 ∨
      entropy.length = 28 ∨ entropy.length = 32)
    (hEb : ∀ b ∈ entropy, b < 256) :
    ∃ m, entropy_to_mnemonic wl entropy = .ok m ∧
      validate_mnemonic wl m = true := by
  have hLpos : 0 < entropy.length := by omega
  -- the entropy bits are the fixed-width binary expansion
  have hnum : beVal 256 entropy < 2 ^ (entropy.length * 8) := by
    have h1 := beVal_lt 256 entropy hEb
    have h2 : (256 : Nat) ^ entropy.length = 2 ^ (entropy.length * 8) := by
      rw [show (256 : Nat) = 2 ^ 8 from rfl, ← Nat.pow_mul, Nat.mul_comm]
    omega
  have hebits : zfill (entropy.length * 8) (pyBin (beVal 256 entropy))
      = beDigits 2 (entropy.length * 8) (beVal 256 entropy) :=
    zfill_pyBin _ _ (by omega) hnum
  have hebl : (zfill (entropy.length * 8) (pyBin (beVal 256 entropy))).length
      = entropy.length * 8 := by rw [hebits, beDigits_length]
  have hebd : ∀ d ∈ zfill (entropy.length * 8) (pyBin (beVal 256 entropy)), d < 2 := by
    rw [hebits]; exact mem_beDigits_lt _ _ _ (by omega)
  -- the checksum bits
  have hsha : beVal 256 (sha256 entropy) < 2 ^ 256 := by
    have h1 := beVal_lt 256 (sha256 entropy) (sha256_lt entropy)
    rw [sha256_length] at h1
    have h2 : (256 : Nat) ^ 32 = 2 ^ 256 := by decide
    omega
  have hcseq : checksum_bits entropy
      = (beDigits 2 256 (beVal 256 (sha256 entropy))).take (entropy.length * 8 / 32) := by
    unfold checksum_bits
    rw [zfill_pyBin 256 _ (by omega) hsha]
  have hcsl : (checksum_bits entropy).length = entropy.length * 8 / 32 := by
    rw [hcseq, List.length_take, beDigits_length]
    omega
  have hcsd : ∀ d ∈ checksum_bits entropy, d < 2 := by
    rw [hcseq]
    intro d hd
    exact mem_beDigits_lt _ _ _ (by omega) d (List.mem_of_mem_take hd)
  -- the combined bit string
  have habl : (zfill (entropy.length * 8) (pyBin (beVal 256 entropy))
      ++ checksum_bits entropy).length = entropy.length * 8 + entropy.length * 8 / 32 := by
    rw [List.length_append, hebl, hcsl]
  have habd : ∀ d ∈ zfill (entropy.length * 8) (pyBin (beVal 256 entropy))
      ++ checksum_bits entropy, d < 2 := by
    intro d hd
    rcases List.mem_append.mp hd with h | h
    · exact hebd d h
    · exact hcsd d h
  have hdvd : 11 ∣ (zfill (entropy.length * 8) (pyBin (beVal 256 entropy))
      ++ checksum_bits entropy).length := by
    rw [habl]; omega
  -- chunk structure
  have hchl := chunks_mem_length 11 (by omega) _ hdvd
  have hchd : ∀ c ∈ chunks 11 (zfill (entropy.length * 8) (pyBin (beVal 256 entropy))
      ++ checksum_bits entropy), ∀ x ∈ c, x < 2 :=
    fun c hc x hx => habd x (chunks_mem_subset 11 _ c hc x hx)
  have hchval : ∀ c ∈ chunks 11 (zfill (entropy.length * 8) (pyBin (beVal 256 entropy))
      ++ checksum_bits entropy), beVal 2 c < 2048 := by
    intro c hc
    have h1 := beVal_lt 2 c (hchd c hc)
    rw [hchl c hc] at h1
    simpa using h1
  have hcount := chunks_count 11 (by omega) _ hdvd
  -- the per-chunk wordlist lookups succeed
  have hgetsome : ∀ c ∈ chunks 11 (zfill (entropy.length * 8) (pyBin (beVal 256 entropy))
      ++ checksum_bits entropy), wl.get? (beVal 2 c) = some (wl.getD (beVal 2 c) []) := by
    intro c hc
    have hlt : beVal 2 c < wl.length := by rw [hwl]; exact hchval c hc
    rw [List.get?_eq_getElem?, List.getD_eq_getElem?_getD,
        List.getElem?_eq_getElem hlt]
    rfl
  have hmapex : mapExcept (fun g =>
        match wl.get? (beVal 2 g) with
        | some w => Except.ok w
        | none => Except.error Err.indexError)
      (chunks 11 (zfill (entropy.length * 8) (pyBin (beVal 256 entropy))
        ++ checksum_bits entropy))
      = .ok ((chunks 11 (zfill (entropy.length * 8) (pyBin (beVal 256 entropy))
        ++ checksum_bits entropy)).map (fun c => wl.getD (beVal 2 c) [])) := by
    apply mapExcept_ok
    intro c hc
    rw [hgetsome c hc]
  -- the mnemonic
  have hETM : entropy_to_mnemonic wl entropy =
      .ok (joinWords ((chunks 11 (zfill (entropy.length * 8) (pyBin (beVal 256 entropy))
        ++ checksum_bits entropy)).map (fun c => wl.getD (beVal 2 c) []))) := by
    simp only [entropy_to_mnemonic]
    rw [if_neg (not_not_intro hE), hmapex, ok_bind]
  refine ⟨_, hETM, ?_⟩
  -- every produced word is an actual wordlist entry
  have hwmem : ∀ c ∈ chunks 11 (zfill (entropy.length * 8) (pyBin (beVal 256 entropy))
      ++ checksum_bits entropy), wl.getD (beVal 2 c) [] ∈ wl := by
    intro c hc
    have := hgetsome c hc
    exact List.get?_mem this
  have hwordsok : ∀ w ∈ (chunks 11 (zfill (entropy.length * 8) (pyBin (beVal 256 entropy))
      ++ checksum_bits entropy)).map (fun c => wl.getD (beVal 2 c) []),
      w ≠ [] ∧ ∀ ch ∈ w, pyIsSpace ch = false := by
    intro w hw
    obtain ⟨c, hc, hcw⟩ := List.mem_map.mp hw
    exact hcw ▸ hwords _ (hwmem c hc)
  -- split returns the word list
  have hsplit : splitWs (joinWords ((chunks 11 (zfill (entropy.length * 8)
        (pyBin (beVal 256 entropy)) ++ checksum_bits entropy)).map
        (fun c => wl.getD (beVal 2 c) [])))
      = (chunks 11 (zfill (entropy.length * 8) (pyBin (beVal 256 entropy))
        ++ checksum_bits entropy)).map (fun c => wl.getD (beVal 2 c) []) :=
    splitWs_joinWords _ hwordsok
  -- word count
  have hWcnt : ((chunks 11 (zfill (entropy.length * 8) (pyBin (beVal 256 entropy))
      ++ checksum_bits entropy)).map (fun c => wl.getD (beVal 2 c) [])).length
      = (entropy.length * 8 + entropy.length * 8 / 32) / 11 := by
    rw [List.length_map, hcount, habl]
  have hWdisj : (entropy.length * 8 + entropy.length * 8 / 32) / 11 = 12 ∨
      (entropy.length * 8 + entropy.length * 8 / 32) / 11 = 15 ∨
      (entropy.length * 8 + entropy.length * 8 / 32) / 11 = 18 ∨
      (entropy.length * 8 + entropy.length * 8 / 32) / 11 = 21 ∨
      (entropy.length * 8 + entropy.length * 8 / 32) / 11 = 24 := by
    omega
  -- index recovery
  have hmo : mapOption (fun w => wl.findIdx? (· == w))
      ((chunks 11 (zfill (entropy.length * 8) (pyBin (beVal 256 entropy))
        ++ checksum_bits entropy)).map (fun c => wl.getD (beVal 2 c) []))
      = some ((chunks 11 (zfill (entropy.length * 8) (pyBin (beVal 256 entropy))
        ++ checksum_bits entropy)).map (fun c => beVal 2 c)) := by
    apply mapOption_some_map
    intro c hc
    exact findIdx_of_nodup wl hnd (beVal 2 c) _ (hgetsome c hc)
  -- bits reconstruction
  have hbits : (((chunks 11 (zfill (entropy.length * 8) (pyBin (beVal 256 entropy))
      ++ checksum_bits entropy)).map (fun c => beVal 2 c)).map
        (fun i => zfill 11 (pyBin i))).flatten
      = zfill (entropy.length * 8) (pyBin (beVal 256 entropy)) ++ checksum_bits entropy := by
    rw [List.map_map]
    have hmapid : (chunks 11 (zfill (entropy.length * 8) (pyBin (beVal 256 entropy))
        ++ checksum_bits entropy)).map ((fun i => zfill 11 (pyBin i)) ∘ (fun c => beVal 2 c))
        = chunks 11 (zfill (entropy.length * 8) (pyBin (beVal 256 entropy))
          ++ checksum_bits entropy) := by
      rw [show (chunks 11 (zfill (entropy.length * 8) (pyBin (beVal 256 entropy))
          ++ checksum_bits entropy)) = (chunks 11 (zfill (entropy.length * 8)
          (pyBin (beVal 256 entropy)) ++ checksum_bits entropy)).map id from
          (List.map_id _).symm]
      rw [List.map_map]
      apply List.map_congr_left
      intro c hc
      show zfill 11 (pyBin (beVal 2 c)) = c
      have h1 : beVal 2 c < 2 ^ 11 := by
        have := hchval c hc
        omega
      rw [zfill_pyBin 11 _ (by omega) h1]
      have h2 := beDigits_beVal 2 c (by omega) (hchd c hc)
      rw [hchl c hc] at h2
      exact h2
    rw [hmapid, chunks_flatten 11 (by omega)]
  -- now evaluate validate_mnemonic
  simp only [validate_mnemonic, hsplit, hmo]
  rw [hWcnt, if_neg (not_not_intro hWdisj)]
  simp only [hbits]
  -- split the reconstructed bits back into entropy and checksum parts
  have hlensub : (zfill (entropy.length * 8) (pyBin (beVal 256 entropy))
      ++ checksum_bits entropy).length
      - (entropy.length * 8 + entropy.length * 8 / 32) / 11 / 3
      = (zfill (entropy.length * 8) (pyBin (beVal 256 entropy))).length := by
    rw [habl, hebl]
    omega
  rw [hlensub, List.take_left, List.drop_left]
  -- the reconstructed entropy is the original entropy
  have hvalback : beVal 2 (zfill (entropy.length * 8) (pyBin (beVal 256 entropy)))
      = beVal 256 entropy := by
    rw [hebits]
    exact beVal_beDigits 2 _ _ hnum
  have hlen8 : (zfill (entropy.length * 8) (pyBin (beVal 256 entropy))).length / 8
      = entropy.length := by
    rw [hebl]
    omega
  rw [hlen8, hvalback, beDigits_beVal 256 entropy (by omega) hEb]
  simp

/-! ## Claim C9 — witness wordlist -/

theorem digitChar_inj : ∀ d1 < 10, ∀ d2 < 10,
    Char.ofNat (48 + d1) = Char.ofNat (48 + d2) → d1 = d2 := by
  decide

theorem digitChar_nonspace : ∀ d < 10, pyIsSpace (Char.ofNat (48 + d)) = false := by
  decide

theorem map_digitChar_inj : ∀ (l1 l2 : List Nat), (∀ d ∈ l1, d < 10) →
    (∀ d ∈ l2, d < 10) →
    l1.map (fun d => Char.ofNat (48 + d)) = l2.map (fun d => Char.ofNat (48 + d)) →
    l1 = l2 := by
  intro l1
  induction l1 with
  | nil =>
    intro l2 _ _ he
    cases l2 with
    | nil => rfl
    | cons d2 t2 => cases he
  | cons d t ih =>
    intro l2 h1 h2 he
    cases l2 with
    | nil => cases he
    | cons d2 t2 =>
      injection he with h3 h4
      rw [digitChar_inj d (h1 d (by simp)) d2 (h2 d2 (by simp)) h3,
          ih t2 (fun x hx => h1 x (by simp [hx])) (fun x hx => h2 x (by simp [hx])) h4]

theorem decWord_digits (n : Nat) :
    ∀ d ∈ (if n = 0 then [0] else minDigits 10 n), d < 10 := by
  split_ifs with h0
  · intro d hd; simp only [List.mem_singleton] at hd; omega
  · exact mem_minDigits_lt 10 n (by omega)

theorem decWord_inj (m n : Nat) (h : decWord m = decWord n) : m = n := by
  unfold decWord at h
  have hdl := map_digitChar_inj _ _ (decWord_digits m) (decWord_digits n) h
  by_cases hm : m = 0 <;> by_cases hn : n = 0
  · omega
  · rw [if_pos hm, if_neg hn] at hdl
    obtain ⟨d0, t0, hmd⟩ : ∃ d0 t0, minDigits 10 n = d0 :: t0 := by
      rcases hmm : minDigits 10 n with _ | ⟨d0, t0⟩
      · exact absurd hmm (minDigits_ne_nil 10 n (by omega) (by omega))
      · exact ⟨d0, t0, rfl⟩
    rw [hmd] at hdl
    injection hdl with h1 _
    exact absurd h1.symm (minDigits_head_ne_zero 10 n (by omega) (by omega) d0 t0 hmd)
  · rw [if_neg hm, if_pos hn] at hdl
    obtain ⟨d0, t0, hmd⟩ : ∃ d0 t0, minDigits 10 m = d0 :: t0 := by
      rcases hmm : minDigits 10 m with _ | ⟨d0, t0⟩
      · exact absurd hmm (minDigits_ne_nil 10 m (by omega) (by omega))
      · exact ⟨d0, t0, rfl⟩
    rw [hmd] at hdl
    injection hdl with h1 _
    exact absurd h1 (minDigits_head_ne_zero 10 m (by omega) (by omega) d0 t0 hmd)
  · rw [if_neg hm, if_neg hn] at hdl
    have := congrArg (beVal 10) hdl
    rwa [beVal_minDigits 10 (by omega), beVal_minDigits 10 (by omega)] at this

theorem wordlist0_length : wordlist0.length = 2048 := by
  unfold wordlist0
  rw [List.length_map, List.length_range]

theorem wordlist0_nodup : wordlist0.Nodup :=
  (List.nodup_range 2048).map (fun a b => decWord_inj a b)

theorem wordlist0_wellformed :
    ∀ w ∈ wordlist0, w ≠ [] ∧ ∀ c ∈ w, pyIsSpace c = false := by
  intro w hw
  obtain ⟨n, _, rfl⟩ := List.mem_map.mp hw
  constructor
  · unfold decWord
    split_ifs with h0
    · simp
    · have := minDigits_ne_nil 10 n (by omega) (by omega)
      simpa using this
  · intro c hc
    unfold decWord at hc
    obtain ⟨d, hd, rfl⟩ := List.mem_map.mp hc
    exact digitChar_nonspace d (decWord_digits n d hd)

/-- Witness for C9: the decimal-numeral wordlist and 16 zero bytes of
entropy; the hypotheses are discharged by the `wordlist0` lemmas, and the
round trip follows from the theorem. -/
theorem mnemonic_roundtrip_witness :
    wordlist0.length = 2048 ∧ wordlist0.Nodup ∧
    (∀ w ∈ wordlist0, w ≠ [] ∧ ∀ c ∈ w, pyIsSpace c = false) ∧
    (List.replicate 16 (0 : Nat)).length = 16 ∧
    (∀ b ∈ List.replicate 16 (0 : Nat), b < 256) ∧
    (∃ m, entropy_to_mnemonic wordlist0 (List.replicate 16 0) = .ok m ∧
      validate_mnemonic wordlist0 m = true) :=
  ⟨wordlist0_length, wordlist0_nodup, wordlist0_wellformed, by decide, by decide,
    mnemonic_roundtrip wordlist0 (List.replicate 16 0) wordlist0_length
      wordlist0_nodup wordlist0_wellformed (Or.inl (by decide)) (by decide)⟩

end CryptoPrims
